import Mathlib

/-!
Shallow embedding of the poldercast membership core: the `Nodes` registry
(`src/nodes.rs`), the `ViewBuilder` (`src/view.rs`) and the `Vicinity` layer
(`src/poldercast/vicinity.rs`).

The `lru::LruCache` is embedded as an association list with the
most-recently-used entry at the head; `HashSet<Id>` as `Finset Id`.
The external types (`Id`, `Node`, `NodeProfile`, `PolicyReport`, ...) are not
under `src/` and are modelled from the spec's data model (section 3).
-/

namespace Poldercast

/-- Modelled from the spec: `Id` is an opaque, totally-ordered, hashable peer
identifier (the `Id` type is not under `src/`). -/
abbrev Id := Nat

/-- Modelled from the spec: a topic of interest (opaque payload). -/
abbrev Topic := Nat

/-- Modelled from the spec: a network address (opaque payload). -/
abbrev Address := Nat

/-- Modelled from the spec: lifecycle log events recorded on a node
(quarantine entered / lifted, topic usage). -/
inductive LogEvent where
  | quarantine
  | liftQuarantine
  | useOf (t : Topic)
deriving DecidableEq, Repr

/-- Modelled from the spec: the identifying profile of a peer, exposing the
peer's `Id`; the payload `pdata` stands for whatever the proximity metric
needs. -/
structure NodeProfile where
  pid : Id
  pdata : Nat
deriving DecidableEq, Repr

/-- Modelled from the spec: a resolved peer-info snapshot (`NodeInfo` is not
under `src/`; only its role as a snapshot of a node matters here). -/
structure NodeInfo where
  nid : Id
  naddress : Option Address
deriving DecidableEq, Repr

/-- Modelled from the spec: a peer record with a profile, an optional network
address (`some` means publicly reachable) and a mutable log of lifecycle
events. -/
structure Node where
  profile : NodeProfile
  address : Option Address
  logs : List LogEvent
deriving DecidableEq, Repr

def Node.id (n : Node) : Id := n.profile.pid

def Node.info (n : Node) : NodeInfo := ⟨n.profile.pid, n.address⟩

/-- Modelled from the spec: the policy's output vocabulary (`PolicyReport` is
not under `src/` but all four variants are matched on in `nodes.rs`). -/
inductive PolicyReport where
  | none
  | forget
  | quarantine
  | liftQuarantine
deriving DecidableEq, Repr

/-! ### The LRU cache (`lru::LruCache`), embedded as an association list.

Most-recently-used entry first; `pop_lru` removes the last entry; `get` and
`put` move the touched entry to the front; `peek` does not. -/

/-- `LruCache::peek` / `contains`: first entry with the given key, no
recency update. -/
def cacheLookup (l : List (Id × Node)) (id : Id) : Option Node :=
  (l.find? (fun p => p.1 == id)).map (·.2)

/-- Remove the (first) entry with the given key (`LruCache::pop`). -/
def cacheErase (l : List (Id × Node)) (id : Id) : List (Id × Node) :=
  l.eraseP (fun p => p.1 == id)

/-- Move the entry with the given key to the front (the recency update
performed by `LruCache::get` / `get_mut`). -/
def cachePromote (l : List (Id × Node)) (id : Id) : List (Id × Node) :=
  match l.find? (fun p => p.1 == id) with
  | some e => e :: cacheErase l id
  | none => l

/-- Replace the value stored under the given key, leaving the order
unchanged (the write through the `&mut` reference returned by `get_mut`). -/
def cacheWrite (l : List (Id × Node)) (id : Id) (n : Node) : List (Id × Node) :=
  l.map (fun p => if p.1 == id then (p.1, n) else p)

/-- `LruCache::put`: replace-and-promote when the key is present, otherwise
push at the front, evicting the least-recently-used entry when already at
capacity. Returns the previous value for the key. -/
def cachePut (l : List (Id × Node)) (cap : Nat) (id : Id) (n : Node) :
    Option Node × List (Id × Node) :=
  match cacheLookup l id with
  | some old => (some old, (id, n) :: cacheErase l id)
  | Option.none =>
    let l' := if l.length == cap then l.dropLast else l
    (Option.none, (id, n) :: l')

/-- The key set of the cache. -/
def cacheKeys (l : List (Id × Node)) : Finset Id := (l.map Prod.fst).toFinset

/-! ### The registry (`Nodes` in `src/nodes.rs`). -/

/-- `Nodes`: the bounded LRU mapping plus the three membership sets. -/
structure Nodes where
  all : List (Id × Node)
  cap : Nat
  quarantined : Finset Id
  not_reachable : Finset Id
  available : Finset Id
deriving DecidableEq

/-- `Nodes::with_capacity`. -/
def Nodes.with_capacity (cap : Nat) : Nodes :=
  { all := [], cap := cap, quarantined := ∅, not_reachable := ∅, available := ∅ }

/-- The body of the eviction loop inside `Nodes::insert`:
`while self.all.len() >= self.all.cap() { pop_lru; strip from the sets }`,
driven by a structural fuel so that it evaluates by kernel reduction. Each
iteration pops the least-recently-used (last) entry and strips its Id from
the three sets. `none` models the state in which the source loop never
exits: `pop_lru` on an empty cache while `len >= cap` still holds, which
happens exactly for capacity 0. -/
def evictLoopF (cap : Nat) :
    Nat → List (Id × Node) → Finset Id → Finset Id → Finset Id →
      Option (List (Id × Node) × Finset Id × Finset Id × Finset Id)
  | 0, _, _, _, _ => Option.none
  | fuel + 1, l, av, nr, q =>
    if cap ≤ l.length then
      match l.getLast? with
      | some kv =>
        evictLoopF cap fuel l.dropLast (av.erase kv.1) (nr.erase kv.1) (q.erase kv.1)
      | Option.none => Option.none
    else
      some (l, av, nr, q)

/-- The eviction loop, with its always-sufficient fuel `l.length + 1`: every
iteration shortens the list by one, so the fuel-0 branch is unreachable. -/
def evictLoop (cap : Nat) (l : List (Id × Node)) (av nr q : Finset Id) :
    Option (List (Id × Node) × Finset Id × Finset Id × Finset Id) :=
  evictLoopF cap (l.length + 1) l av nr q

/-- `Nodes::insert` (the private method): classify the new node's id into
`available` or `not_reachable`, run the eviction loop, then `put`.
`none` models the non-terminating capacity-0 eviction loop. -/
def Nodes.insert (s : Nodes) (node : Node) : Option (Option Node × Nodes) :=
  let id := node.id
  let av := if node.address.isSome then Insert.insert id s.available else s.available
  let nr := if node.address.isSome then s.not_reachable else Insert.insert id s.not_reachable
  match evictLoop s.cap s.all av nr s.quarantined with
  | some (l, av', nr', q') =>
    let r := cachePut l s.cap id node
    some (r.1, { all := r.2, cap := s.cap, quarantined := q',
                 not_reachable := nr', available := av' })
  | Option.none => Option.none

/-- `Entry::or_insert`: `entry(id)` followed by `VacantEntry::insert` when
vacant, and nothing when occupied. -/
def Nodes.entryInsert (s : Nodes) (node : Node) : Option Nodes :=
  if (cacheLookup s.all node.id).isSome then some s
  else
    match s.insert node with
    | some r => some r.2
    | Option.none => Option.none

/-- `OccupiedEntry::modify`, reached through `Entry::and_modify`: `none` when
the entry is vacant. The policy is embedded as a function returning the
report together with the (possibly mutated) node, since `Policy::check`
takes `&mut Node`. `get_mut` promotes the entry; the mutator `f` and the
policy run on the stored node; the report then drives the transition
table. -/
def Nodes.modify (s : Nodes) (id : Id) (pol : Node → PolicyReport × Node)
    (f : Node → Node) : Option (PolicyReport × Nodes) :=
  match cacheLookup s.all id with
  | Option.none => Option.none
  | some node0 =>
    let l1 := cachePromote s.all id
    let was_reachable := node0.address.isSome
    let node1 := f node0
    let pr := pol node1
    let node2 := pr.2
    match pr.1 with
    | PolicyReport.none =>
      let now_reachable := node2.address.isSome
      let s' :=
        if was_reachable = true ∧ ¬ now_reachable = true then
          if id ∈ s.available then
            { all := cacheWrite l1 id node2, cap := s.cap,
              quarantined := s.quarantined,
              not_reachable := Insert.insert id s.not_reachable,
              available := s.available.erase id }
          else
            { s with all := cacheWrite l1 id node2 }
        else if ¬ was_reachable = true ∧ now_reachable = true ∧ id ∈ s.not_reachable then
          { all := cacheWrite l1 id node2, cap := s.cap,
            quarantined := s.quarantined,
            not_reachable := s.not_reachable.erase id,
            available := Insert.insert id s.available }
        else
          { s with all := cacheWrite l1 id node2 }
      some (PolicyReport.none, s')
    | PolicyReport.forget =>
      some (PolicyReport.forget,
        { all := cacheErase l1 id, cap := s.cap,
          quarantined := s.quarantined.erase id,
          not_reachable := s.not_reachable.erase id,
          available := s.available.erase id })
    | PolicyReport.quarantine =>
      let node3 := { node2 with logs := node2.logs ++ [LogEvent.quarantine] }
      some (PolicyReport.quarantine,
        { all := cacheWrite l1 id node3, cap := s.cap,
          quarantined := Insert.insert id s.quarantined,
          not_reachable := s.not_reachable.erase id,
          available := s.available.erase id })
    | PolicyReport.liftQuarantine =>
      let node3 := { node2 with logs := node2.logs ++ [LogEvent.liftQuarantine] }
      some (PolicyReport.liftQuarantine,
        { all := cacheWrite l1 id node3, cap := s.cap,
          quarantined := s.quarantined.erase id,
          not_reachable :=
            if node2.address.isSome then s.not_reachable
            else Insert.insert id s.not_reachable,
          available :=
            if node2.address.isSome then Insert.insert id s.available
            else s.available })

/-- Result of the iteration inside `Nodes::reset`: the cache list with
updated node values, the three sets, and the deferred removal list. -/
structure ResetOut where
  list : List (Id × Node)
  av : Finset Id
  nr : Finset Id
  q : Finset Id
  rem : List Id

/-- The `for (k, node) in self.all.iter_mut()` loop of `Nodes::reset`,
head of the list (most recently used) first. The policy is a function of
the key and the node (the key only stands for the position of the call in
the pass, so that a stateful `Policy` is covered). -/
def resetLoop (pol : Id → Node → PolicyReport × Node) :
    List (Id × Node) → Finset Id → Finset Id → Finset Id → List Id → ResetOut
  | [], av, nr, q, rem => ⟨[], av, nr, q, rem⟩
  | (k, n) :: rest, av, nr, q, rem =>
    let pr := pol k n
    match pr.1 with
    | PolicyReport.none =>
      let out := resetLoop pol rest av nr q rem
      { out with list := (k, pr.2) :: out.list }
    | PolicyReport.forget =>
      let out := resetLoop pol rest (av.erase k) (nr.erase k) (q.erase k) (rem ++ [k])
      { out with list := (k, pr.2) :: out.list }
    | PolicyReport.quarantine =>
      let n2 := { pr.2 with logs := pr.2.logs ++ [LogEvent.quarantine] }
      let out := resetLoop pol rest (av.erase k) (nr.erase k) (Insert.insert k q) rem
      { out with list := (k, n2) :: out.list }
    | PolicyReport.liftQuarantine =>
      let n2 := { pr.2 with logs := pr.2.logs ++ [LogEvent.liftQuarantine] }
      let av' := if pr.2.address.isSome then Insert.insert k av else av
      let nr' := if pr.2.address.isSome then nr else Insert.insert k nr
      let out := resetLoop pol rest av' nr' (q.erase k) rem
      { out with list := (k, n2) :: out.list }

/-- The deferred `for k in to_remove { self.all.pop(&k) }` after the pass. -/
def popAll (l : List (Id × Node)) (rem : List Id) : List (Id × Node) :=
  rem.foldl (fun acc k => cacheErase acc k) l

/-- `Nodes::reset`. -/
def Nodes.reset (s : Nodes) (pol : Id → Node → PolicyReport × Node) : Nodes :=
  let out := resetLoop pol s.all s.available s.not_reachable s.quarantined []
  { all := popAll out.list out.rem, cap := s.cap,
    quarantined := out.q, not_reachable := out.nr, available := out.av }

/-! ### Sequences of registry operations. -/

/-- One registry operation: insertion through `Entry::or_insert`, mutation
through `Entry::and_modify`, or a policy pass through `Nodes::reset`. Each
operation carries its own policy function, which covers any (even stateful)
`Policy` implementation for that call. -/
inductive RegOp where
  | opInsert (n : Node)
  | opModify (id : Id) (pol : Node → PolicyReport × Node) (f : Node → Node)
  | opReset (pol : Id → Node → PolicyReport × Node)

def execOp (s : Nodes) : RegOp → Option Nodes
  | RegOp.opInsert n => s.entryInsert n
  | RegOp.opModify id pol f =>
    match s.modify id pol f with
    | some r => some r.2
    | Option.none => some s
  | RegOp.opReset pol => some (s.reset pol)

def execOps (s : Nodes) : List RegOp → Option Nodes
  | [] => some s
  | op :: rest =>
    match execOp s op with
    | some s' => execOps s' rest
    | Option.none => Option.none

/-! ### The registry invariants. -/

/-- The three membership sets are pairwise disjoint. -/
def SetsDisjoint (s : Nodes) : Prop :=
  s.available ∩ s.not_reachable = ∅ ∧ s.available ∩ s.quarantined = ∅ ∧
  s.not_reachable ∩ s.quarantined = ∅

/-- The union of the three membership sets is exactly the set of Ids present
in the bounded cache. -/
def SetsCover (s : Nodes) : Prop :=
  s.available ∪ s.not_reachable ∪ s.quarantined = cacheKeys s.all

/-- The cache holds each Id at most once (true of any real `LruCache`). -/
def KeysNodup (s : Nodes) : Prop := (s.all.map Prod.fst).Nodup

def entryHasAddress (s : Nodes) (id : Id) : Bool :=
  match cacheLookup s.all id with
  | some n => n.address.isSome
  | Option.none => false

def entryLacksAddress (s : Nodes) (id : Id) : Bool :=
  match cacheLookup s.all id with
  | some n => n.address.isNone
  | Option.none => false

/-- Every Id in `available` maps to a node with an address, every Id in
`not_reachable` to one without. -/
def AddrInv (s : Nodes) : Prop :=
  (∀ id ∈ s.available, entryHasAddress s id = true) ∧
  (∀ id ∈ s.not_reachable, entryLacksAddress s id = true)

/-- An operation is guarded when any `LiftQuarantine` report it produces is
issued for an Id that is currently quarantined. -/
def opGuard (s : Nodes) : RegOp → Prop
  | RegOp.opInsert _ => True
  | RegOp.opModify id pol f =>
    ∀ n, cacheLookup s.all id = some n →
      (pol (f n)).1 = PolicyReport.liftQuarantine → id ∈ s.quarantined
  | RegOp.opReset pol =>
    ∀ kn ∈ s.all, (pol kn.1 kn.2).1 = PolicyReport.liftQuarantine → kn.1 ∈ s.quarantined

/-- Every step of the sequence is guarded in the state where it runs. -/
def GuardedOps (s : Nodes) : List RegOp → Prop
  | [] => True
  | op :: rest => opGuard s op ∧ ∀ s', execOp s op = some s' → GuardedOps s' rest

/-- The operation's policy never mutates the address of the node it checks. -/
def opAddrPres : RegOp → Prop
  | RegOp.opInsert _ => True
  | RegOp.opModify _ pol _ => ∀ n, ((pol n).2).address = n.address
  | RegOp.opReset pol => ∀ k n, ((pol k n).2).address = n.address

/-! ### The vicinity layer (`src/poldercast/vicinity.rs`). -/

def VICINITY_MAX_VIEW_SIZE : Nat := 20
def VICINITY_MAX_GOSSIP_LENGTH : Nat := 10

structure Vicinity where
  view : List Id
deriving DecidableEq, Repr

/-- Modelled from the spec: the external `GossipsBuilder` contract, a
recipient Id plus the peers added through `add`. -/
structure GossipsBuilder where
  recipient : Id
  added : List Id
deriving DecidableEq, Repr

/-- `Vicinity::select_closest_nodes` after its initial shuffle: the
deterministic unstable sort by proximity, then `take max`, then the Ids.
The shuffle (and the tie reordering of the unstable sort) is modelled in the
theorems by quantifying over every permutation of the candidate list. The
proximity metric is external (`NodeProfile::proximity`) and passed as a
function. -/
def Vicinity.select_closest_nodes (prox : NodeProfile → NodeProfile → Nat)
    (toP : NodeProfile) (profiles : List Node) (max : Nat) : List Id :=
  ((profiles.mergeSort
      (fun l r => decide (prox toP l.profile ≤ prox toP r.profile))).take max).map Node.id

/-- `Vicinity::populate` (`available_nodes` is enumerated in the `Finset`
order; the shuffle inside the selection is quantified in the theorems). -/
def Vicinity.populate (prox : NodeProfile → NodeProfile → Nat) (_v : Vicinity)
    (identity : NodeProfile) (s : Nodes) : Vicinity :=
  { view := Vicinity.select_closest_nodes prox identity
      (((s.available.sort (· ≤ ·)).filter (fun id => id != identity.pid)).filterMap
        (fun id => cacheLookup s.all id))
      VICINITY_MAX_VIEW_SIZE }

/-- `Vicinity::gossips`: look up the recipient with `peek`; when present,
select the closest available nodes (recipient excluded) and add them to the
builder; when absent, do nothing. The registry is only read (`&Nodes`), so
it is returned unchanged. -/
def Vicinity.gossips (prox : NodeProfile → NodeProfile → Nat) (v : Vicinity)
    (gb : GossipsBuilder) (s : Nodes) : Vicinity × GossipsBuilder × Nodes :=
  match cacheLookup s.all gb.recipient with
  | some recipientNode =>
    let gs := Vicinity.select_closest_nodes prox recipientNode.profile
      (((s.available.sort (· ≤ ·)).filter (fun id => id != gb.recipient)).filterMap
        (fun id => cacheLookup s.all id))
      VICINITY_MAX_GOSSIP_LENGTH
    (v, { gb with added := gb.added ++ gs }, s)
  | Option.none => (v, gb, s)

/-! ### The view builder (`src/view.rs`). -/

inductive Selection where
  | topic (t : Topic)
  | any
deriving DecidableEq, Repr

structure ViewBuilder where
  event_origin : Option Id
  selection : Selection
  view : Finset Id
  view_info : List NodeInfo

/-- `ViewBuilder::add`: record topic usage on the node when the selection is
a topic, then insert the node's Id into the pending set. Returns the builder
together with the (possibly log-extended) node written back to its owner. -/
def ViewBuilder.add (b : ViewBuilder) (n : Node) : ViewBuilder × Node :=
  let n' :=
    match b.selection with
    | Selection.topic t => { n with logs := n.logs ++ [LogEvent.useOf t] }
    | Selection.any => n
  ({ b with view := Insert.insert n'.id b.view }, n')

/-- `ViewBuilder::add_info`. -/
def ViewBuilder.add_info (b : ViewBuilder) (i : NodeInfo) : ViewBuilder :=
  { b with view_info := b.view_info ++ [i] }

/-- `Nodes::get` (crate-private): a recency-updating lookup. -/
def Nodes.get (s : Nodes) (id : Id) : Option Node × Nodes :=
  match cacheLookup s.all id with
  | some n => (some n, { s with all := cachePromote s.all id })
  | Option.none => (Option.none, s)

/-- One step of the `filter_map`/`extend` iteration inside
`ViewBuilder::build`: resolve one pending Id through `Nodes::get` and append
its info snapshot when present. -/
def buildStep (acc : List NodeInfo × Nodes) (id : Id) : List NodeInfo × Nodes :=
  match Nodes.get acc.2 id with
  | (some n, s') => (acc.1 ++ [n.info], s')
  | (Option.none, s') => (acc.1, s')

/-- `ViewBuilder::build`: start from the directly-added infos and extend with
the pending Ids resolved through `Nodes::get`, skipping absent ones. The
`HashSet` iteration order is unspecified, so the enumeration `order` of the
pending set is a parameter, quantified in the theorems. -/
def ViewBuilder.build (b : ViewBuilder) (order : List Id) (s : Nodes) :
    List NodeInfo × Nodes :=
  order.foldl buildStep (b.view_info, s)

/-! ### Association-list lemmas for the cache embedding. -/

@[simp] theorem cacheLookup_nil (x : Id) : cacheLookup [] x = Option.none := rfl

@[simp] theorem cacheErase_nil (x : Id) : cacheErase [] x = [] := rfl

@[simp] theorem cacheLookup_cons (k : Id) (n : Node) (t : List (Id × Node)) (x : Id) :
    cacheLookup ((k, n) :: t) x = if k = x then some n else cacheLookup t x := by
  by_cases h : k = x <;> simp [cacheLookup, List.find?_cons, h]

@[simp] theorem cacheErase_cons (k : Id) (n : Node) (t : List (Id × Node)) (x : Id) :
    cacheErase ((k, n) :: t) x = if k = x then t else (k, n) :: cacheErase t x := by
  by_cases h : k = x <;> simp [cacheErase, List.eraseP_cons, h]

@[simp] theorem cacheWrite_nil (x : Id) (m : Node) : cacheWrite [] x m = [] := rfl

@[simp] theorem cacheWrite_cons (k : Id) (n : Node) (t : List (Id × Node)) (x : Id)
    (m : Node) :
    cacheWrite ((k, n) :: t) x m =
      (if k = x then (k, m) else (k, n)) :: cacheWrite t x m := by
  by_cases h : k = x <;> simp [cacheWrite, h]

@[simp] theorem cacheKeys_nil : cacheKeys [] = ∅ := rfl

theorem mem_cacheKeys {l : List (Id × Node)} {x : Id} :
    x ∈ cacheKeys l ↔ x ∈ l.map Prod.fst := by
  simp [cacheKeys]

@[simp] theorem cacheKeys_cons (k : Id) (n : Node) (t : List (Id × Node)) :
    cacheKeys ((k, n) :: t) = Insert.insert k (cacheKeys t) := by
  simp [cacheKeys]

theorem cacheLookup_eq_none_iff {l : List (Id × Node)} {x : Id} :
    cacheLookup l x = Option.none ↔ x ∉ cacheKeys l := by
  induction l with
  | nil => simp
  | cons p t ih =>
    obtain ⟨k, n⟩ := p
    by_cases h : k = x
    · subst h
      simp
    · simp [h, ih, Ne.symm h]

theorem cacheLookup_isSome_iff {l : List (Id × Node)} {x : Id} :
    (cacheLookup l x).isSome = true ↔ x ∈ cacheKeys l := by
  induction l with
  | nil => simp
  | cons p t ih =>
    obtain ⟨k, n⟩ := p
    by_cases h : k = x
    · subst h
      simp
    · simp [h, ih, Ne.symm h]

theorem cacheLookup_cacheErase_ne {l : List (Id × Node)} {x y : Id} (h : x ≠ y) :
    cacheLookup (cacheErase l y) x = cacheLookup l x := by
  induction l with
  | nil => simp
  | cons p t ih =>
    obtain ⟨k, n⟩ := p
    by_cases hk : k = y
    · subst hk
      simp [Ne.symm h]
    · by_cases hx : k = x <;> simp [hk, hx, ih, h]

theorem map_fst_cacheWrite (l : List (Id × Node)) (x : Id) (m : Node) :
    (cacheWrite l x m).map Prod.fst = l.map Prod.fst := by
  induction l with
  | nil => simp
  | cons p t ih =>
    obtain ⟨k, n⟩ := p
    by_cases h : k = x <;> simp [h, ih]

theorem cacheKeys_cacheWrite (l : List (Id × Node)) (x : Id) (m : Node) :
    cacheKeys (cacheWrite l x m) = cacheKeys l := by
  simp [cacheKeys, map_fst_cacheWrite]

theorem cacheErase_sublist (l : List (Id × Node)) (x : Id) :
    List.Sublist (cacheErase l x) l :=
  List.eraseP_sublist l

theorem map_fst_cacheErase_sublist (l : List (Id × Node)) (x : Id) :
    List.Sublist ((cacheErase l x).map Prod.fst) (l.map Prod.fst) :=
  (cacheErase_sublist l x).map Prod.fst

theorem nodup_keys_cacheErase {l : List (Id × Node)} {x : Id}
    (h : (l.map Prod.fst).Nodup) : ((cacheErase l x).map Prod.fst).Nodup :=
  (map_fst_cacheErase_sublist l x).nodup h

theorem cacheKeys_cacheErase {l : List (Id × Node)} {x : Id}
    (h : (l.map Prod.fst).Nodup) :
    cacheKeys (cacheErase l x) = (cacheKeys l).erase x := by
  induction l with
  | nil => simp
  | cons p t ih =>
    obtain ⟨k, n⟩ := p
    simp only [List.map_cons, List.nodup_cons] at h
    by_cases hk : k = x
    · subst hk
      have hnk : k ∉ cacheKeys t := by
        simpa [mem_cacheKeys] using h.1
      simp [Finset.erase_insert hnk]
    · simp [hk, ih h.2, Finset.erase_insert_of_ne hk]

theorem cacheLookup_cacheErase_self {l : List (Id × Node)} {x : Id}
    (h : (l.map Prod.fst).Nodup) : cacheLookup (cacheErase l x) x = Option.none := by
  rw [cacheLookup_eq_none_iff, cacheKeys_cacheErase h]
  simp

theorem cons_cacheErase_perm (l : List (Id × Node)) (x : Id) :
    ∀ e, l.find? (fun p => p.1 == x) = some e →
      List.Perm (e :: cacheErase l x) l := by
  induction l with
  | nil =>
    intro e hf
    simp at hf
  | cons p t ih =>
    intro e hf
    obtain ⟨k, n⟩ := p
    by_cases hp : k = x
    · rw [List.find?_cons_of_pos _ (by simpa using hp)] at hf
      cases hf
      rw [cacheErase_cons, if_pos hp]
    · rw [List.find?_cons_of_neg _ (by simpa using hp)] at hf
      rw [cacheErase_cons, if_neg hp]
      exact (List.Perm.swap (k, n) e _).trans ((ih e hf).cons (k, n))

theorem cachePromote_perm (l : List (Id × Node)) (x : Id) :
    List.Perm (cachePromote l x) l := by
  unfold cachePromote
  cases hf : l.find? (fun p => p.1 == x) with
  | none => exact List.Perm.refl l
  | some e => exact cons_cacheErase_perm l x e hf

theorem map_fst_cachePromote_perm (l : List (Id × Node)) (x : Id) :
    List.Perm ((cachePromote l x).map Prod.fst) (l.map Prod.fst) :=
  (cachePromote_perm l x).map Prod.fst

theorem nodup_keys_cachePromote {l : List (Id × Node)} {x : Id}
    (h : (l.map Prod.fst).Nodup) : ((cachePromote l x).map Prod.fst).Nodup :=
  (map_fst_cachePromote_perm l x).nodup_iff.mpr h

theorem cacheKeys_cachePromote (l : List (Id × Node)) (x : Id) :
    cacheKeys (cachePromote l x) = cacheKeys l :=
  List.toFinset_eq_of_perm _ _ (map_fst_cachePromote_perm l x)

theorem cacheLookup_cachePromote (l : List (Id × Node)) (x y : Id) :
    cacheLookup (cachePromote l x) y = cacheLookup l y := by
  unfold cachePromote
  cases hf : l.find? (fun p => p.1 == x) with
  | none => rfl
  | some e =>
    obtain ⟨k, n⟩ := e
    have hk : k = x := by simpa using List.find?_some hf
    subst hk
    by_cases hy : k = y
    · subst hy
      simp [cacheLookup, List.find?_cons, hf]
    · rw [cacheLookup_cons, if_neg hy,
        cacheLookup_cacheErase_ne (fun hh => hy hh.symm)]

theorem cacheLookup_sublist {l' l : List (Id × Node)} (hs : List.Sublist l' l)
    (h : (l.map Prod.fst).Nodup) :
    ∀ x ∈ cacheKeys l', cacheLookup l' x = cacheLookup l x := by
  induction hs with
  | slnil =>
    intro x hx
    simp at hx
  | @cons l₁ l₂ p hs ih =>
    intro x hx
    obtain ⟨k, n⟩ := p
    simp only [List.map_cons, List.nodup_cons] at h
    have hxk : k ≠ x := by
      intro hh
      subst hh
      exact h.1 (by
        have := (List.Sublist.map Prod.fst hs).subset
        exact this (by simpa [mem_cacheKeys] using hx))
    rw [cacheLookup_cons, if_neg hxk]
    exact ih h.2 x hx
  | @cons₂ l₁ l₂ p hs ih =>
    intro x hx
    obtain ⟨k, n⟩ := p
    simp only [List.map_cons, List.nodup_cons] at h
    by_cases hk : k = x
    · simp [hk]
    · rw [cacheLookup_cons, if_neg hk, cacheLookup_cons, if_neg hk]
      have hx2 : x ∈ cacheKeys l₁ := by
        rcases (by simpa using hx : x = k ∨ x ∈ cacheKeys l₁) with hh | hh
        · exact absurd hh.symm hk
        · exact hh
      exact ih h.2 x hx2

@[simp] theorem popAll_nil (l : List (Id × Node)) : popAll l [] = l := rfl

@[simp] theorem popAll_cons (l : List (Id × Node)) (r : Id) (rs : List Id) :
    popAll l (r :: rs) = popAll (cacheErase l r) rs := rfl

theorem map_fst_popAll_sublist (rem : List Id) :
    ∀ l : List (Id × Node), List.Sublist ((popAll l rem).map Prod.fst) (l.map Prod.fst) := by
  induction rem with
  | nil =>
    intro l
    simp [List.Sublist.refl]
  | cons r rs ih =>
    intro l
    exact (ih (cacheErase l r)).trans (map_fst_cacheErase_sublist l r)

theorem nodup_keys_popAll {l : List (Id × Node)} {rem : List Id}
    (h : (l.map Prod.fst).Nodup) : ((popAll l rem).map Prod.fst).Nodup :=
  (map_fst_popAll_sublist rem l).nodup h

theorem cacheKeys_popAll (rem : List Id) :
    ∀ l : List (Id × Node), (l.map Prod.fst).Nodup →
      cacheKeys (popAll l rem) = cacheKeys l \ rem.toFinset := by
  induction rem with
  | nil =>
    intro l _
    simp
  | cons r rs ih =>
    intro l h
    rw [popAll_cons, ih (cacheErase l r) (nodup_keys_cacheErase h), cacheKeys_cacheErase h]
    ext x
    simp only [Finset.mem_sdiff, Finset.mem_erase, List.toFinset_cons, Finset.mem_insert,
      List.mem_toFinset]
    tauto

theorem cacheLookup_popAll_not_mem {rem : List Id} {x : Id} (hx : x ∉ rem) :
    ∀ l : List (Id × Node), cacheLookup (popAll l rem) x = cacheLookup l x := by
  induction rem with
  | nil =>
    intro l
    simp
  | cons r rs ih =>
    intro l
    simp only [List.mem_cons, not_or] at hx
    rw [popAll_cons, ih hx.2 (cacheErase l r), cacheLookup_cacheErase_ne hx.1]

theorem inter_empty_mono {a b a' b' : Finset Id} (ha : a' ⊆ a) (hb : b' ⊆ b)
    (h : a ∩ b = ∅) : a' ∩ b' = ∅ := by
  rw [Finset.eq_empty_iff_forall_not_mem] at h ⊢
  intro x hx
  rw [Finset.mem_inter] at hx
  exact h x (Finset.mem_inter.mpr ⟨ha hx.1, hb hx.2⟩)

/-! ### Unfolding lemmas for the eviction loop. -/

theorem evictLoop_of_lt {cap : Nat} {l : List (Id × Node)} {av nr q : Finset Id}
    (h : l.length < cap) : evictLoop cap l av nr q = some (l, av, nr, q) := by
  rw [evictLoop, evictLoopF]
  simp [Nat.not_le.mpr h]

theorem evictLoop_step {cap : Nat} {l : List (Id × Node)} {av nr q : Finset Id}
    {kv : Id × Node} (h : cap ≤ l.length) (h2 : l.getLast? = some kv) :
    evictLoop cap l av nr q =
      evictLoop cap l.dropLast (av.erase kv.1) (nr.erase kv.1) (q.erase kv.1) := by
  have hne : l ≠ [] := by
    intro he
    rw [he] at h2
    simp at h2
  have hlen : l.dropLast.length + 1 = l.length := by
    rw [List.length_dropLast]
    have := List.length_pos.mpr hne
    omega
  show evictLoopF cap (l.length + 1) l av nr q =
    evictLoopF cap (l.dropLast.length + 1) l.dropLast
      (av.erase kv.1) (nr.erase kv.1) (q.erase kv.1)
  rw [hlen]
  rw [evictLoopF, if_pos h, h2]

theorem evictLoop_stuck {cap : Nat} {l : List (Id × Node)} {av nr q : Finset Id}
    (h : cap ≤ l.length) (h2 : l.getLast? = Option.none) :
    evictLoop cap l av nr q = Option.none := by
  rw [evictLoop, evictLoopF, if_pos h, h2]

theorem keys_of_getLast {l : List (Id × Node)} {kv : Id × Node}
    (h2 : l.getLast? = some kv) (hN : (l.map Prod.fst).Nodup) :
    kv.1 ∉ l.dropLast.map Prod.fst ∧
    cacheKeys l = Insert.insert kv.1 (cacheKeys l.dropLast) := by
  have hne : l ≠ [] := by
    intro he
    rw [he] at h2
    simp at h2
  have hlast : l.getLast hne = kv := by
    have := List.getLast?_eq_getLast l hne
    rw [h2] at this
    injection this with hh
    exact hh.symm
  have heq : l.dropLast ++ [kv] = l := by
    rw [← hlast]
    exact List.dropLast_concat_getLast hne
  constructor
  · intro hmem
    have hN2 : (l.dropLast.map Prod.fst ++ [kv.1]).Nodup := by
      have h0 : ((l.dropLast ++ [kv]).map Prod.fst).Nodup := by
        rw [heq]
        exact hN
      simpa using h0
    rw [List.nodup_append] at hN2
    exact hN2.2.2 hmem (by simp)
  · conv_lhs => rw [← heq]
    ext x
    simp [cacheKeys, or_comm]

/-- The full behaviour of the eviction loop needed by the invariant proofs:
given no duplicate keys, pairwise-disjoint sets, and a cover of the keys plus
a set `X` of fresh Ids, the surviving list and sets keep all of that, the
surviving list fits strictly under the capacity, and the fresh Ids keep
exactly their previous memberships. -/
theorem evictLoop_spec (cap : Nat) (X : Finset Id) :
    ∀ (N : Nat) (l : List (Id × Node)) (av nr q : Finset Id)
      (out : List (Id × Node) × Finset Id × Finset Id × Finset Id),
      l.length ≤ N →
      evictLoop cap l av nr q = some out →
      (l.map Prod.fst).Nodup →
      av ∩ nr = ∅ → av ∩ q = ∅ → nr ∩ q = ∅ →
      av ∪ nr ∪ q = cacheKeys l ∪ X →
      (∀ x ∈ X, x ∉ cacheKeys l) →
      ((out.1.map Prod.fst).Nodup ∧
       out.1.length < cap ∧
       List.Sublist out.1 l ∧
       (out.2.1 ⊆ av ∧ out.2.2.1 ⊆ nr ∧ out.2.2.2 ⊆ q) ∧
       (out.2.1 ∩ out.2.2.1 = ∅ ∧ out.2.1 ∩ out.2.2.2 = ∅ ∧
        out.2.2.1 ∩ out.2.2.2 = ∅) ∧
       out.2.1 ∪ out.2.2.1 ∪ out.2.2.2 = cacheKeys out.1 ∪ X ∧
       (∀ x ∈ X, x ∉ cacheKeys out.1) ∧
       (∀ x ∈ X, (x ∈ out.2.1 ↔ x ∈ av) ∧ (x ∈ out.2.2.1 ↔ x ∈ nr) ∧
         (x ∈ out.2.2.2 ↔ x ∈ q))) := by
  intro N
  induction N with
  | zero =>
    intro l av nr q out hlen hev hN hd1 hd2 hd3 hcov hX
    have hl : l = [] := List.length_eq_zero.mp (Nat.le_zero.mp hlen)
    subst hl
    by_cases hc : cap ≤ (0 : Nat)
    · have h0 : evictLoop cap ([] : List (Id × Node)) av nr q = Option.none :=
        evictLoop_stuck (by simpa using hc) rfl
      rw [h0] at hev
      exact Option.noConfusion hev
    · rw [evictLoop_of_lt (by simpa using Nat.not_le.mp hc)] at hev
      injection hev with hev
      subst hev
      exact ⟨hN, by simpa using Nat.not_le.mp hc, List.Sublist.refl _,
        ⟨subset_rfl, subset_rfl, subset_rfl⟩, ⟨hd1, hd2, hd3⟩, hcov, hX,
        fun x _ => ⟨Iff.rfl, Iff.rfl, Iff.rfl⟩⟩
  | succ N ih =>
    intro l av nr q out hlen hev hN hd1 hd2 hd3 hcov hX
    by_cases hc : cap ≤ l.length
    · cases h2 : l.getLast? with
      | none =>
        rw [evictLoop_stuck hc h2] at hev
        exact Option.noConfusion hev
      | some kv =>
        rw [evictLoop_step hc h2] at hev
        obtain ⟨hk_not, hkeys⟩ := keys_of_getLast h2 hN
        have hN' : (l.dropLast.map Prod.fst).Nodup :=
          ((List.dropLast_sublist l).map Prod.fst).nodup hN
        have hkdrop : kv.1 ∉ cacheKeys l.dropLast := by
          simpa [mem_cacheKeys] using hk_not
        have hkin : kv.1 ∈ cacheKeys l := by
          rw [hkeys]
          exact Finset.mem_insert_self _ _
        have hXk : kv.1 ∉ X := fun hx => hX kv.1 hx hkin
        have hlen' : l.dropLast.length ≤ N := by
          rw [List.length_dropLast]
          omega
        have hd1' := inter_empty_mono (Finset.erase_subset kv.1 av)
          (Finset.erase_subset kv.1 nr) hd1
        have hd2' := inter_empty_mono (Finset.erase_subset kv.1 av)
          (Finset.erase_subset kv.1 q) hd2
        have hd3' := inter_empty_mono (Finset.erase_subset kv.1 nr)
          (Finset.erase_subset kv.1 q) hd3
        have hcovx := Finset.ext_iff.mp hcov
        have hcov' : av.erase kv.1 ∪ nr.erase kv.1 ∪ q.erase kv.1 =
            cacheKeys l.dropLast ∪ X := by
          ext x
          by_cases hxk : x = kv.1
          · subst hxk
            simp [hkdrop, hXk]
          · have h0 := hcovx x
            rw [hkeys] at h0
            simp only [Finset.mem_union, Finset.mem_erase, Finset.mem_insert, hxk,
              false_or, ne_eq, not_false_iff, true_and] at h0 ⊢
            exact h0
        have hX' : ∀ x ∈ X, x ∉ cacheKeys l.dropLast := by
          intro x hx hmem
          exact hX x hx (by rw [hkeys]; exact Finset.mem_insert_of_mem hmem)
        obtain ⟨c1, c2, c3, c4, c5, c6, c7, c8⟩ :=
          ih l.dropLast (av.erase kv.1) (nr.erase kv.1) (q.erase kv.1) out
            hlen' hev hN' hd1' hd2' hd3' hcov' hX'
        refine ⟨c1, c2, c3.trans (List.dropLast_sublist l),
          ⟨c4.1.trans (Finset.erase_subset _ _), c4.2.1.trans (Finset.erase_subset _ _),
           c4.2.2.trans (Finset.erase_subset _ _)⟩, c5, c6, c7, ?_⟩
        intro x hx
        have hxk : x ≠ kv.1 := by
          intro hh
          subst hh
          exact hX kv.1 hx hkin
        obtain ⟨i1, i2, i3⟩ := c8 x hx
        refine ⟨i1.trans ?_, i2.trans ?_, i3.trans ?_⟩ <;>
          simp [Finset.mem_erase, hxk]
    · rw [evictLoop_of_lt (Nat.not_le.mp hc)] at hev
      injection hev with hev
      subst hev
      exact ⟨hN, Nat.not_le.mp hc, List.Sublist.refl _,
        ⟨subset_rfl, subset_rfl, subset_rfl⟩, ⟨hd1, hd2, hd3⟩, hcov, hX,
        fun x _ => ⟨Iff.rfl, Iff.rfl, Iff.rfl⟩⟩

theorem cacheLookup_cacheWrite_self {l : List (Id × Node)} {x : Id} {m : Node}
    (h : (cacheLookup l x).isSome = true) :
    cacheLookup (cacheWrite l x m) x = some m := by
  induction l with
  | nil => simp [cacheLookup] at h
  | cons p t ih =>
    obtain ⟨k, n⟩ := p
    by_cases hk : k = x
    · simp [hk]
    · rw [cacheLookup_cons, if_neg hk] at h
      rw [cacheWrite_cons, if_neg hk, cacheLookup_cons, if_neg hk]
      exact ih h

theorem cacheLookup_cacheWrite_ne {l : List (Id × Node)} {x y : Id} {m : Node}
    (h : y ≠ x) : cacheLookup (cacheWrite l x m) y = cacheLookup l y := by
  induction l with
  | nil => simp
  | cons p t ih =>
    obtain ⟨k, n⟩ := p
    by_cases hk : k = x
    · subst hk
      rw [cacheWrite_cons, if_pos rfl, cacheLookup_cons, if_neg (fun hh => h hh.symm),
        cacheLookup_cons, if_neg (fun hh => h hh.symm)]
      exact ih
    · rw [cacheWrite_cons, if_neg hk]
      by_cases hy : k = y
      · simp [hy]
      · rw [cacheLookup_cons, if_neg hy, cacheLookup_cons, if_neg hy]
        exact ih

theorem inter_eq_empty_iff {a b : Finset Id} : a ∩ b = ∅ ↔ ∀ x ∈ a, x ∉ b := by
  rw [Finset.eq_empty_iff_forall_not_mem]
  constructor
  · intro h x hx hb
    exact h x (Finset.mem_inter.mpr ⟨hx, hb⟩)
  · intro h x hx
    rw [Finset.mem_inter] at hx
    exact h x hx.1 hx.2

theorem entryHasAddress_iff {s : Nodes} {x : Id} :
    entryHasAddress s x = true ↔
      ∃ n, cacheLookup s.all x = some n ∧ n.address.isSome = true := by
  unfold entryHasAddress
  cases h : cacheLookup s.all x <;> simp

theorem entryLacksAddress_iff {s : Nodes} {x : Id} :
    entryLacksAddress s x = true ↔
      ∃ n, cacheLookup s.all x = some n ∧ n.address = Option.none := by
  unfold entryLacksAddress
  cases h : cacheLookup s.all x <;> simp [Option.isNone_iff_eq_none]

theorem addrInv_build {l2 : List (Id × Node)} {c : Nat} {qS nrS avS : Finset Id}
    (hav : ∀ x ∈ avS, ∃ nn, cacheLookup l2 x = some nn ∧ nn.address.isSome = true)
    (hnr : ∀ x ∈ nrS, ∃ nn, cacheLookup l2 x = some nn ∧ nn.address = Option.none) :
    AddrInv { all := l2, cap := c, quarantined := qS,
              not_reachable := nrS, available := avS } := by
  constructor
  · intro x hx
    rw [entryHasAddress_iff]
    exact hav x hx
  · intro x hx
    rw [entryLacksAddress_iff]
    exact hnr x hx

/-! ### Shape of `OccupiedEntry::modify` by report. -/

theorem modify_eq_of_vacant {s : Nodes} {id : Id} {pol : Node → PolicyReport × Node}
    {f : Node → Node} (hlook : cacheLookup s.all id = Option.none) :
    s.modify id pol f = Option.none := by
  simp [Nodes.modify, hlook]

theorem modify_eq_of_none {s : Nodes} {id : Id} {pol : Node → PolicyReport × Node}
    {f : Node → Node} {node0 : Node} (hlook : cacheLookup s.all id = some node0)
    (hrep : (pol (f node0)).1 = PolicyReport.none) :
    s.modify id pol f = some (PolicyReport.none,
      if node0.address.isSome = true ∧ ¬ ((pol (f node0)).2).address.isSome = true then
        if id ∈ s.available then
          { all := cacheWrite (cachePromote s.all id) id (pol (f node0)).2,
            cap := s.cap,
            quarantined := s.quarantined,
            not_reachable := Insert.insert id s.not_reachable,
            available := s.available.erase id }
        else { s with all := cacheWrite (cachePromote s.all id) id (pol (f node0)).2 }
      else if ¬ node0.address.isSome = true ∧ ((pol (f node0)).2).address.isSome = true ∧
          id ∈ s.not_reachable then
        { all := cacheWrite (cachePromote s.all id) id (pol (f node0)).2,
          cap := s.cap,
          quarantined := s.quarantined,
          not_reachable := s.not_reachable.erase id,
          available := Insert.insert id s.available }
      else { s with all := cacheWrite (cachePromote s.all id) id (pol (f node0)).2 }) := by
  simp [Nodes.modify, hlook, hrep]

theorem modify_eq_of_forget {s : Nodes} {id : Id} {pol : Node → PolicyReport × Node}
    {f : Node → Node} {node0 : Node} (hlook : cacheLookup s.all id = some node0)
    (hrep : (pol (f node0)).1 = PolicyReport.forget) :
    s.modify id pol f = some (PolicyReport.forget,
      { all := cacheErase (cachePromote s.all id) id, cap := s.cap,
        quarantined := s.quarantined.erase id,
        not_reachable := s.not_reachable.erase id,
        available := s.available.erase id }) := by
  simp [Nodes.modify, hlook, hrep]

theorem modify_eq_of_quarantine {s : Nodes} {id : Id} {pol : Node → PolicyReport × Node}
    {f : Node → Node} {node0 : Node} (hlook : cacheLookup s.all id = some node0)
    (hrep : (pol (f node0)).1 = PolicyReport.quarantine) :
    s.modify id pol f = some (PolicyReport.quarantine,
      { all := cacheWrite (cachePromote s.all id) id
          { (pol (f node0)).2 with
            logs := ((pol (f node0)).2).logs ++ [LogEvent.quarantine] },
        cap := s.cap,
        quarantined := Insert.insert id s.quarantined,
        not_reachable := s.not_reachable.erase id,
        available := s.available.erase id }) := by
  simp [Nodes.modify, hlook, hrep]

theorem modify_eq_of_lift {s : Nodes} {id : Id} {pol : Node → PolicyReport × Node}
    {f : Node → Node} {node0 : Node} (hlook : cacheLookup s.all id = some node0)
    (hrep : (pol (f node0)).1 = PolicyReport.liftQuarantine) :
    s.modify id pol f = some (PolicyReport.liftQuarantine,
      { all := cacheWrite (cachePromote s.all id) id
          { (pol (f node0)).2 with
            logs := ((pol (f node0)).2).logs ++ [LogEvent.liftQuarantine] },
        cap := s.cap,
        quarantined := s.quarantined.erase id,
        not_reachable :=
          if ((pol (f node0)).2).address.isSome then s.not_reachable
          else Insert.insert id s.not_reachable,
        available :=
          if ((pol (f node0)).2).address.isSome then Insert.insert id s.available
          else s.available }) := by
  simp [Nodes.modify, hlook, hrep]

/-- `OccupiedEntry::modify` preserves the key discipline, the pairwise
disjointness, the cover and the address classification of the registry,
provided any `LiftQuarantine` report is issued for a currently quarantined
Id. -/
theorem modify_spec {s : Nodes} {id : Id} {pol : Node → PolicyReport × Node}
    {f : Node → Node} {r : PolicyReport} {s' : Nodes}
    (hm : s.modify id pol f = some (r, s'))
    (hN : KeysNodup s) (hD : SetsDisjoint s) (hC : SetsCover s)
    (hG : ∀ n, cacheLookup s.all id = some n →
      (pol (f n)).1 = PolicyReport.liftQuarantine → id ∈ s.quarantined) :
    KeysNodup s' ∧ SetsDisjoint s' ∧ SetsCover s' ∧ (AddrInv s → AddrInv s') := by
  cases hlook : cacheLookup s.all id with
  | none =>
    rw [modify_eq_of_vacant hlook] at hm
    exact Option.noConfusion hm
  | some node0 =>
    have hNl1 : ((cachePromote s.all id).map Prod.fst).Nodup := nodup_keys_cachePromote hN
    have hlook1 : cacheLookup (cachePromote s.all id) id = some node0 := by
      rw [cacheLookup_cachePromote]
      exact hlook
    have hidK : id ∈ cacheKeys s.all := by
      rw [← cacheLookup_isSome_iff, hlook]
      rfl
    have hd1 := inter_eq_empty_iff.mp hD.1
    have hd2 := inter_eq_empty_iff.mp hD.2.1
    have hd3 := inter_eq_empty_iff.mp hD.2.2
    have hCx := Finset.ext_iff.mp hC
    have wlookself : ∀ m : Node,
        cacheLookup (cacheWrite (cachePromote s.all id) id m) id = some m := by
      intro m
      exact cacheLookup_cacheWrite_self (by rw [hlook1]; rfl)
    have wlookne : ∀ y : Id, y ≠ id → ∀ m : Node,
        cacheLookup (cacheWrite (cachePromote s.all id) id m) y =
          cacheLookup s.all y := by
      intro y hy m
      rw [cacheLookup_cacheWrite_ne hy, cacheLookup_cachePromote]
    have wkeys : ∀ m : Node,
        cacheKeys (cacheWrite (cachePromote s.all id) id m) = cacheKeys s.all := by
      intro m
      rw [cacheKeys_cacheWrite, cacheKeys_cachePromote]
    have wnodup : ∀ m : Node,
        ((cacheWrite (cachePromote s.all id) id m).map Prod.fst).Nodup := by
      intro m
      rw [map_fst_cacheWrite]
      exact hNl1
    cases hrep : (pol (f node0)).1 with
    | none =>
      rw [modify_eq_of_none hlook hrep] at hm
      injection hm with hm
      have hs := congrArg Prod.snd hm
      dsimp only at hs
      subst hs
      split_ifs with h1 h2 h3
      · -- was reachable, no longer, and id was available: migrate to not_reachable
        have hnone : ((pol (f node0)).2).address = Option.none := by
          rcases haddr : ((pol (f node0)).2).address with _ | a
          · rfl
          · rw [haddr] at h1
            simp at h1
        refine ⟨wnodup _, ⟨?_, ?_, ?_⟩, ?_, ?_⟩
        · rw [inter_eq_empty_iff]
          intro x hx hx2
          rw [Finset.mem_erase] at hx
          rcases Finset.mem_insert.mp hx2 with hh | hh
          · exact hx.1 hh
          · exact hd1 x hx.2 hh
        · rw [inter_eq_empty_iff]
          intro x hx hx2
          rw [Finset.mem_erase] at hx
          exact hd2 x hx.2 hx2
        · rw [inter_eq_empty_iff]
          intro x hx hx2
          rcases Finset.mem_insert.mp hx with hh | hh
          · subst hh
            exact hd2 x h2 hx2
          · exact hd3 x hh hx2
        · show _ ∪ _ ∪ _ = _
          rw [wkeys]
          ext x
          by_cases hx : x = id
          · subst hx
            simp [hidK, h2]
          · have h0 := hCx x
            simp only [Finset.mem_union, Finset.mem_erase, Finset.mem_insert, hx,
              false_or, ne_eq, not_false_iff, true_and] at h0 ⊢
            exact h0
        · intro hA
          apply addrInv_build
          · intro x hx
            rw [Finset.mem_erase] at hx
            obtain ⟨nn, hnn1, hnn2⟩ := entryHasAddress_iff.mp (hA.1 x hx.2)
            exact ⟨nn, by rw [wlookne x hx.1]; exact hnn1, hnn2⟩
          · intro x hx
            rcases Finset.mem_insert.mp hx with hh | hh
            · subst hh
              exact ⟨_, wlookself _, hnone⟩
            · have hxid : x ≠ id := by
                intro he
                subst he
                exact hd1 x h2 hh
              obtain ⟨nn, hnn1, hnn2⟩ := entryLacksAddress_iff.mp (hA.2 x hh)
              exact ⟨nn, by rw [wlookne x hxid]; exact hnn1, hnn2⟩
      · -- was reachable, no longer, but id not in available: sets unchanged
        refine ⟨wnodup _, ⟨hD.1, hD.2.1, hD.2.2⟩, ?_, ?_⟩
        · show _ ∪ _ ∪ _ = _
          rw [wkeys]
          exact hC
        · intro hA
          apply addrInv_build
          · intro x hx
            have hxid : x ≠ id := fun he => h2 (he ▸ hx)
            obtain ⟨nn, hnn1, hnn2⟩ := entryHasAddress_iff.mp (hA.1 x hx)
            exact ⟨nn, by rw [wlookne x hxid]; exact hnn1, hnn2⟩
          · intro x hx
            have hxid : x ≠ id := by
              intro he
              subst he
              obtain ⟨nn, hnn1, hnn2⟩ := entryLacksAddress_iff.mp (hA.2 x hx)
              rw [hlook] at hnn1
              injection hnn1 with hnn1
              subst hnn1
              rw [hnn2] at h1
              simp at h1
            obtain ⟨nn, hnn1, hnn2⟩ := entryLacksAddress_iff.mp (hA.2 x hx)
            exact ⟨nn, by rw [wlookne x hxid]; exact hnn1, hnn2⟩
      · -- was unreachable, now reachable, id in not_reachable: migrate to available
        have hnav : id ∉ s.available := by
          intro hh
          exact hd1 id hh h3.2.2
        refine ⟨wnodup _, ⟨?_, ?_, ?_⟩, ?_, ?_⟩
        · rw [inter_eq_empty_iff]
          intro x hx hx2
          rw [Finset.mem_erase] at hx2
          rcases Finset.mem_insert.mp hx with hh | hh
          · exact hx2.1 hh
          · exact hd1 x hh hx2.2
        · rw [inter_eq_empty_iff]
          intro x hx hx2
          rcases Finset.mem_insert.mp hx with hh | hh
          · subst hh
            exact hd3 x h3.2.2 hx2
          · exact hd2 x hh hx2
        · rw [inter_eq_empty_iff]
          intro x hx hx2
          rw [Finset.mem_erase] at hx
          exact hd3 x hx.2 hx2
        · show _ ∪ _ ∪ _ = _
          rw [wkeys]
          ext x
          by_cases hx : x = id
          · subst hx
            simp [hidK]
          · have h0 := hCx x
            simp only [Finset.mem_union, Finset.mem_erase, Finset.mem_insert, hx,
              false_or, ne_eq, not_false_iff, true_and] at h0 ⊢
            exact h0
        · intro hA
          apply addrInv_build
          · intro x hx
            rcases Finset.mem_insert.mp hx with hh | hh
            · subst hh
              exact ⟨_, wlookself _, h3.2.1⟩
            · have hxid : x ≠ id := fun he => hnav (he ▸ hh)
              obtain ⟨nn, hnn1, hnn2⟩ := entryHasAddress_iff.mp (hA.1 x hh)
              exact ⟨nn, by rw [wlookne x hxid]; exact hnn1, hnn2⟩
          · intro x hx
            rw [Finset.mem_erase] at hx
            obtain ⟨nn, hnn1, hnn2⟩ := entryLacksAddress_iff.mp (hA.2 x hx.2)
            exact ⟨nn, by rw [wlookne x hx.1]; exact hnn1, hnn2⟩
      · -- no migration: sets unchanged
        refine ⟨wnodup _, ⟨hD.1, hD.2.1, hD.2.2⟩, ?_, ?_⟩
        · show _ ∪ _ ∪ _ = _
          rw [wkeys]
          exact hC
        · intro hA
          apply addrInv_build
          · intro x hx
            by_cases hxid : x = id
            · subst hxid
              obtain ⟨nn, hnn1, hnn2⟩ := entryHasAddress_iff.mp (hA.1 x hx)
              rw [hlook] at hnn1
              injection hnn1 with hnn1
              subst hnn1
              have hnow : ((pol (f node0)).2).address.isSome = true := by
                by_contra hh
                exact h1 ⟨hnn2, hh⟩
              exact ⟨_, wlookself _, hnow⟩
            · obtain ⟨nn, hnn1, hnn2⟩ := entryHasAddress_iff.mp (hA.1 x hx)
              exact ⟨nn, by rw [wlookne x hxid]; exact hnn1, hnn2⟩
          · intro x hx
            by_cases hxid : x = id
            · subst hxid
              obtain ⟨nn, hnn1, hnn2⟩ := entryLacksAddress_iff.mp (hA.2 x hx)
              rw [hlook] at hnn1
              injection hnn1 with hnn1
              subst hnn1
              have hwas : ¬ node0.address.isSome = true := by
                rw [hnn2]
                simp
              have hnow : ¬ ((pol (f node0)).2).address.isSome = true := by
                intro hh
                exact h3 ⟨hwas, hh, hx⟩
              have hend : ((pol (f node0)).2).address = Option.none := by
                rcases haddr : ((pol (f node0)).2).address with _ | a
                · rfl
                · rw [haddr] at hnow
                  simp at hnow
              exact ⟨_, wlookself _, hend⟩
            · obtain ⟨nn, hnn1, hnn2⟩ := entryLacksAddress_iff.mp (hA.2 x hx)
              exact ⟨nn, by rw [wlookne x hxid]; exact hnn1, hnn2⟩
    | forget =>
      rw [modify_eq_of_forget hlook hrep] at hm
      injection hm with hm
      have hs := congrArg Prod.snd hm
      dsimp only at hs
      subst hs
      have hNe : ((cacheErase (cachePromote s.all id) id).map Prod.fst).Nodup :=
        nodup_keys_cacheErase hNl1
      have hKe : cacheKeys (cacheErase (cachePromote s.all id) id) =
          (cacheKeys s.all).erase id := by
        rw [cacheKeys_cacheErase hNl1, cacheKeys_cachePromote]
      have elookne : ∀ y : Id, y ≠ id →
          cacheLookup (cacheErase (cachePromote s.all id) id) y =
            cacheLookup s.all y := by
        intro y hy
        rw [cacheLookup_cacheErase_ne hy, cacheLookup_cachePromote]
      refine ⟨hNe, ⟨?_, ?_, ?_⟩, ?_, ?_⟩
      · exact inter_empty_mono (Finset.erase_subset _ _) (Finset.erase_subset _ _) hD.1
      · exact inter_empty_mono (Finset.erase_subset _ _) (Finset.erase_subset _ _) hD.2.1
      · exact inter_empty_mono (Finset.erase_subset _ _) (Finset.erase_subset _ _) hD.2.2
      · show _ ∪ _ ∪ _ = _
        rw [hKe]
        ext x
        by_cases hx : x = id
        · subst hx
          simp
        · have h0 := hCx x
          simp only [Finset.mem_union, Finset.mem_erase, hx, ne_eq, not_false_iff,
            true_and] at h0 ⊢
          exact h0
      · intro hA
        apply addrInv_build
        · intro x hx
          rw [Finset.mem_erase] at hx
          obtain ⟨nn, hnn1, hnn2⟩ := entryHasAddress_iff.mp (hA.1 x hx.2)
          exact ⟨nn, by rw [elookne x hx.1]; exact hnn1, hnn2⟩
        · intro x hx
          rw [Finset.mem_erase] at hx
          obtain ⟨nn, hnn1, hnn2⟩ := entryLacksAddress_iff.mp (hA.2 x hx.2)
          exact ⟨nn, by rw [elookne x hx.1]; exact hnn1, hnn2⟩
    | quarantine =>
      rw [modify_eq_of_quarantine hlook hrep] at hm
      injection hm with hm
      have hs := congrArg Prod.snd hm
      dsimp only at hs
      subst hs
      refine ⟨wnodup _, ⟨?_, ?_, ?_⟩, ?_, ?_⟩
      · exact inter_empty_mono (Finset.erase_subset _ _) (Finset.erase_subset _ _) hD.1
      · rw [inter_eq_empty_iff]
        intro x hx hx2
        rw [Finset.mem_erase] at hx
        rcases Finset.mem_insert.mp hx2 with hh | hh
        · exact hx.1 hh
        · exact hd2 x hx.2 hh
      · rw [inter_eq_empty_iff]
        intro x hx hx2
        rw [Finset.mem_erase] at hx
        rcases Finset.mem_insert.mp hx2 with hh | hh
        · exact hx.1 hh
        · exact hd3 x hx.2 hh
      · show _ ∪ _ ∪ _ = _
        rw [wkeys]
        ext x
        by_cases hx : x = id
        · subst hx
          simp [hidK]
        · have h0 := hCx x
          simp only [Finset.mem_union, Finset.mem_erase, Finset.mem_insert, hx,
            false_or, ne_eq, not_false_iff, true_and] at h0 ⊢
          exact h0
      · intro hA
        apply addrInv_build
        · intro x hx
          rw [Finset.mem_erase] at hx
          obtain ⟨nn, hnn1, hnn2⟩ := entryHasAddress_iff.mp (hA.1 x hx.2)
          exact ⟨nn, by rw [wlookne x hx.1]; exact hnn1, hnn2⟩
        · intro x hx
          rw [Finset.mem_erase] at hx
          obtain ⟨nn, hnn1, hnn2⟩ := entryLacksAddress_iff.mp (hA.2 x hx.2)
          exact ⟨nn, by rw [wlookne x hx.1]; exact hnn1, hnn2⟩
    | liftQuarantine =>
      rw [modify_eq_of_lift hlook hrep] at hm
      injection hm with hm
      have hs := congrArg Prod.snd hm
      dsimp only at hs
      subst hs
      have hq : id ∈ s.quarantined := hG node0 hlook hrep
      have hnav : id ∉ s.available := fun hh => hd2 id hh hq
      have hnnr : id ∉ s.not_reachable := fun hh => hd3 id hh hq
      split_ifs with haddr
      · refine ⟨wnodup _, ⟨?_, ?_, ?_⟩, ?_, ?_⟩
        · rw [inter_eq_empty_iff]
          intro x hx hx2
          rcases Finset.mem_insert.mp hx with hh | hh
          · subst hh
            exact hnnr hx2
          · exact hd1 x hh hx2
        · rw [inter_eq_empty_iff]
          intro x hx hx2
          rw [Finset.mem_erase] at hx2
          rcases Finset.mem_insert.mp hx with hh | hh
          · exact hx2.1 hh
          · exact hd2 x hh hx2.2
        · rw [inter_eq_empty_iff]
          intro x hx hx2
          rw [Finset.mem_erase] at hx2
          exact hd3 x hx hx2.2
        · show _ ∪ _ ∪ _ = _
          rw [wkeys]
          ext x
          by_cases hx : x = id
          · subst hx
            simp [hidK]
          · have h0 := hCx x
            simp only [Finset.mem_union, Finset.mem_erase, Finset.mem_insert, hx,
              false_or, ne_eq, not_false_iff, true_and] at h0 ⊢
            exact h0
        · intro hA
          apply addrInv_build
          · intro x hx
            rcases Finset.mem_insert.mp hx with hh | hh
            · subst hh
              exact ⟨_, wlookself _, haddr⟩
            · have hxid : x ≠ id := fun he => hnav (he ▸ hh)
              obtain ⟨nn, hnn1, hnn2⟩ := entryHasAddress_iff.mp (hA.1 x hh)
              exact ⟨nn, by rw [wlookne x hxid]; exact hnn1, hnn2⟩
          · intro x hx
            have hxid : x ≠ id := fun he => hnnr (he ▸ hx)
            obtain ⟨nn, hnn1, hnn2⟩ := entryLacksAddress_iff.mp (hA.2 x hx)
            exact ⟨nn, by rw [wlookne x hxid]; exact hnn1, hnn2⟩
      · have hend : ((pol (f node0)).2).address = Option.none := by
          rcases ha2 : ((pol (f node0)).2).address with _ | a
          · rfl
          · rw [ha2] at haddr
            simp at haddr
        refine ⟨wnodup _, ⟨?_, ?_, ?_⟩, ?_, ?_⟩
        · rw [inter_eq_empty_iff]
          intro x hx hx2
          rcases Finset.mem_insert.mp hx2 with hh | hh
          · exact hnav (hh ▸ hx)
          · exact hd1 x hx hh
        · rw [inter_eq_empty_iff]
          intro x hx hx2
          rw [Finset.mem_erase] at hx2
          exact hd2 x hx hx2.2
        · rw [inter_eq_empty_iff]
          intro x hx hx2
          rw [Finset.mem_erase] at hx2
          rcases Finset.mem_insert.mp hx with hh | hh
          · exact hx2.1 hh
          · exact hd3 x hh hx2.2
        · show _ ∪ _ ∪ _ = _
          rw [wkeys]
          ext x
          by_cases hx : x = id
          · subst hx
            simp [hidK]
          · have h0 := hCx x
            simp only [Finset.mem_union, Finset.mem_erase, Finset.mem_insert, hx,
              false_or, ne_eq, not_false_iff, true_and] at h0 ⊢
            exact h0
        · intro hA
          apply addrInv_build
          · intro x hx
            have hxid : x ≠ id := fun he => hnav (he ▸ hx)
            obtain ⟨nn, hnn1, hnn2⟩ := entryHasAddress_iff.mp (hA.1 x hx)
            exact ⟨nn, by rw [wlookne x hxid]; exact hnn1, hnn2⟩
          · intro x hx
            rcases Finset.mem_insert.mp hx with hh | hh
            · subst hh
              exact ⟨_, wlookself _, hend⟩
            · have hxid : x ≠ id := fun he => hnnr (he ▸ hh)
              obtain ⟨nn, hnn1, hnn2⟩ := entryLacksAddress_iff.mp (hA.2 x hh)
              exact ⟨nn, by rw [wlookne x hxid]; exact hnn1, hnn2⟩

theorem cacheLookup_of_mem {l : List (Id × Node)} (hN : (l.map Prod.fst).Nodup)
    {kn : Id × Node} (h : kn ∈ l) : cacheLookup l kn.1 = some kn.2 := by
  induction l with
  | nil => simp at h
  | cons p t ih =>
    obtain ⟨k, n⟩ := p
    simp only [List.map_cons, List.nodup_cons] at hN
    rcases List.mem_cons.mp h with hh | hh
    · subst hh
      simp
    · have hk : k ≠ kn.1 := by
        intro he
        exact hN.1 (he ▸ (List.mem_map.mpr ⟨kn, hh, rfl⟩))
      rw [cacheLookup_cons, if_neg hk]
      exact ih hN.2 hh

theorem cacheLookup_mem {l : List (Id × Node)} {x : Id} {m : Node}
    (h : cacheLookup l x = some m) : (x, m) ∈ l := by
  induction l with
  | nil => simp at h
  | cons p t ih =>
    obtain ⟨k, n⟩ := p
    by_cases hk : k = x
    · subst hk
      rw [cacheLookup_cons, if_pos rfl] at h
      injection h with h
      subst h
      exact List.mem_cons_self _ _
    · rw [cacheLookup_cons, if_neg hk] at h
      exact List.mem_cons_of_mem _ (ih h)

/-- The loop of `Nodes::reset` keeps the keys of the cache list, keeps the
three sets pairwise disjoint, shrinks their union exactly by the deferred
removals, and only grows the removal list — provided any `LiftQuarantine`
report is issued for a currently quarantined Id. -/
theorem resetLoop_basic (pol : Id → Node → PolicyReport × Node) :
    ∀ (l : List (Id × Node)) (av nr q : Finset Id) (rem : List Id),
      (l.map Prod.fst).Nodup →
      av ∩ nr = ∅ → av ∩ q = ∅ → nr ∩ q = ∅ →
      (∀ kn ∈ l, kn.1 ∈ av ∪ nr ∪ q) →
      (∀ kn ∈ l, (pol kn.1 kn.2).1 = PolicyReport.liftQuarantine → kn.1 ∈ q) →
      (∀ x ∈ rem, x ∉ av ∪ nr ∪ q) →
      ∀ out : ResetOut, resetLoop pol l av nr q rem = out →
      (out.list.map Prod.fst = l.map Prod.fst ∧
       (out.av ∩ out.nr = ∅ ∧ out.av ∩ out.q = ∅ ∧ out.nr ∩ out.q = ∅) ∧
       out.av ∪ out.nr ∪ out.q = (av ∪ nr ∪ q) \ out.rem.toFinset ∧
       (∀ x ∈ rem, x ∈ out.rem)) := by
  intro l
  induction l with
  | nil =>
    intro av nr q rem hN hd1 hd2 hd3 hcov hG hrem out hout
    rw [resetLoop] at hout
    subst hout
    refine ⟨rfl, ⟨hd1, hd2, hd3⟩, ?_, fun x hx => hx⟩
    ext x
    simp only [Finset.mem_sdiff, List.mem_toFinset]
    exact ⟨fun hx => ⟨hx, fun hr => hrem x hr hx⟩, fun hx => hx.1⟩
  | cons kn rest ih =>
    obtain ⟨k, n⟩ := kn
    intro av nr q rem hN hd1 hd2 hd3 hcov hG hrem out hout
    simp only [List.map_cons, List.nodup_cons] at hN
    have hkU : k ∈ av ∪ nr ∪ q := hcov (k, n) (List.mem_cons_self _ _)
    have hknotrest : ∀ kn2 ∈ rest, k ≠ kn2.1 := by
      intro kn2 h2 he
      exact hN.1 (he ▸ (List.mem_map.mpr ⟨kn2, h2, rfl⟩))
    cases hpr : (pol k n).1 with
    | none =>
      rw [resetLoop] at hout
      simp only [hpr] at hout
      subst hout
      obtain ⟨r1, r2, r3, r4⟩ := ih av nr q rem hN.2 hd1 hd2 hd3
        (fun kn2 h2 => hcov kn2 (List.mem_cons_of_mem _ h2))
        (fun kn2 h2 => hG kn2 (List.mem_cons_of_mem _ h2))
        hrem (resetLoop pol rest av nr q rem) rfl
      exact ⟨by simp [r1], r2, r3, r4⟩
    | forget =>
      rw [resetLoop] at hout
      simp only [hpr] at hout
      subst hout
      have hd1' := inter_empty_mono (Finset.erase_subset k av)
        (Finset.erase_subset k nr) hd1
      have hd2' := inter_empty_mono (Finset.erase_subset k av)
        (Finset.erase_subset k q) hd2
      have hd3' := inter_empty_mono (Finset.erase_subset k nr)
        (Finset.erase_subset k q) hd3
      have hcov' : ∀ kn2 ∈ rest, kn2.1 ∈ av.erase k ∪ nr.erase k ∪ q.erase k := by
        intro kn2 h2
        have := hcov kn2 (List.mem_cons_of_mem _ h2)
        have hne : kn2.1 ≠ k := fun he => hknotrest kn2 h2 he.symm
        simp only [Finset.mem_union, Finset.mem_erase] at this ⊢
        tauto
      have hG' : ∀ kn2 ∈ rest,
          (pol kn2.1 kn2.2).1 = PolicyReport.liftQuarantine → kn2.1 ∈ q.erase k := by
        intro kn2 h2 hlift
        have hne : kn2.1 ≠ k := fun he => hknotrest kn2 h2 he.symm
        exact Finset.mem_erase.mpr ⟨hne, hG kn2 (List.mem_cons_of_mem _ h2) hlift⟩
      have hrem' : ∀ x ∈ rem ++ [k], x ∉ av.erase k ∪ nr.erase k ∪ q.erase k := by
        intro x hx hxm
        simp only [Finset.mem_union, Finset.mem_erase] at hxm
        rcases List.mem_append.mp hx with hh | hh
        · exact hrem x hh (by
            simp only [Finset.mem_union]
            tauto)
        · have : x = k := by simpa using hh
          subst this
          tauto
      obtain ⟨r1, r2, r3, r4⟩ := ih (av.erase k) (nr.erase k) (q.erase k) (rem ++ [k])
        hN.2 hd1' hd2' hd3' hcov' hG' hrem'
        (resetLoop pol rest (av.erase k) (nr.erase k) (q.erase k) (rem ++ [k])) rfl
      refine ⟨by simp [r1], r2, ?_, ?_⟩
      · rw [r3]
        ext x
        have hk_in_rem : k ∈ (resetLoop pol rest (av.erase k) (nr.erase k)
            (q.erase k) (rem ++ [k])).rem :=
          r4 k (List.mem_append.mpr (Or.inr (List.mem_singleton.mpr rfl)))
        by_cases hx : x = k
        · subst hx
          simp [hk_in_rem]
        · simp only [Finset.mem_sdiff, Finset.mem_union, Finset.mem_erase,
            List.mem_toFinset, hx, ne_eq, not_false_iff, true_and]
      · intro x hx
        exact r4 x (List.mem_append.mpr (Or.inl hx))
    | quarantine =>
      rw [resetLoop] at hout
      simp only [hpr] at hout
      subst hout
      have hd1' := inter_empty_mono (Finset.erase_subset k av)
        (Finset.erase_subset k nr) hd1
      have hd2' : av.erase k ∩ Insert.insert k q = ∅ := by
        rw [inter_eq_empty_iff]
        intro x hx hx2
        rw [Finset.mem_erase] at hx
        rcases Finset.mem_insert.mp hx2 with hh | hh
        · exact hx.1 hh
        · exact inter_eq_empty_iff.mp hd2 x hx.2 hh
      have hd3' : nr.erase k ∩ Insert.insert k q = ∅ := by
        rw [inter_eq_empty_iff]
        intro x hx hx2
        rw [Finset.mem_erase] at hx
        rcases Finset.mem_insert.mp hx2 with hh | hh
        · exact hx.1 hh
        · exact inter_eq_empty_iff.mp hd3 x hx.2 hh
      have hcov' : ∀ kn2 ∈ rest,
          kn2.1 ∈ av.erase k ∪ nr.erase k ∪ Insert.insert k q := by
        intro kn2 h2
        have := hcov kn2 (List.mem_cons_of_mem _ h2)
        have hne : kn2.1 ≠ k := fun he => hknotrest kn2 h2 he.symm
        simp only [Finset.mem_union, Finset.mem_erase, Finset.mem_insert] at this ⊢
        tauto
      have hG' : ∀ kn2 ∈ rest,
          (pol kn2.1 kn2.2).1 = PolicyReport.liftQuarantine →
            kn2.1 ∈ Insert.insert k q := by
        intro kn2 h2 hlift
        exact Finset.mem_insert_of_mem (hG kn2 (List.mem_cons_of_mem _ h2) hlift)
      have hrem' : ∀ x ∈ rem, x ∉ av.erase k ∪ nr.erase k ∪ Insert.insert k q := by
        intro x hx hxm
        have hxU := hrem x hx
        have hxk : x ≠ k := by
          intro he
          subst he
          exact hxU hkU
        simp only [Finset.mem_union, Finset.mem_erase, Finset.mem_insert, hxk,
          false_or] at hxm
        exact hxU (by
          simp only [Finset.mem_union]
          tauto)
      obtain ⟨r1, r2, r3, r4⟩ := ih (av.erase k) (nr.erase k) (Insert.insert k q) rem
        hN.2 hd1' hd2' hd3' hcov' hG' hrem'
        (resetLoop pol rest (av.erase k) (nr.erase k) (Insert.insert k q) rem) rfl
      refine ⟨by simp [r1], r2, ?_, r4⟩
      rw [r3]
      ext x
      by_cases hx : x = k
      · subst hx
        have hU := hkU
        simp only [Finset.mem_union] at hU
        simp only [Finset.mem_sdiff, Finset.mem_union, Finset.mem_erase,
          Finset.mem_insert, List.mem_toFinset]
        tauto
      · simp only [Finset.mem_sdiff, Finset.mem_union, Finset.mem_erase,
          Finset.mem_insert, List.mem_toFinset, hx, ne_eq, not_false_iff, true_and,
          false_or]
    | liftQuarantine =>
      rw [resetLoop] at hout
      simp only [hpr] at hout
      have hkq : k ∈ q := hG (k, n) (List.mem_cons_self _ _) hpr
      have hkav : k ∉ av := fun hh => inter_eq_empty_iff.mp hd2 k hh hkq
      have hknr : k ∉ nr := fun hh => inter_eq_empty_iff.mp hd3 k hh hkq
      by_cases haddr : ((pol k n).2).address.isSome = true
      · simp [haddr] at hout
        subst hout
        have hd1' : Insert.insert k av ∩ nr = ∅ := by
          rw [inter_eq_empty_iff]
          intro x hx hx2
          rcases Finset.mem_insert.mp hx with hh | hh
          · exact hknr (hh ▸ hx2)
          · exact inter_eq_empty_iff.mp hd1 x hh hx2
        have hd2' : Insert.insert k av ∩ q.erase k = ∅ := by
          rw [inter_eq_empty_iff]
          intro x hx hx2
          rw [Finset.mem_erase] at hx2
          rcases Finset.mem_insert.mp hx with hh | hh
          · exact hx2.1 hh
          · exact inter_eq_empty_iff.mp hd2 x hh hx2.2
        have hd3' : nr ∩ q.erase k = ∅ := by
          rw [inter_eq_empty_iff]
          intro x hx hx2
          rw [Finset.mem_erase] at hx2
          exact inter_eq_empty_iff.mp hd3 x hx hx2.2
        have hcov' : ∀ kn2 ∈ rest, kn2.1 ∈ Insert.insert k av ∪ nr ∪ q.erase k := by
          intro kn2 h2
          have := hcov kn2 (List.mem_cons_of_mem _ h2)
          have hne : kn2.1 ≠ k := fun he => hknotrest kn2 h2 he.symm
          simp only [Finset.mem_union, Finset.mem_erase, Finset.mem_insert, hne,
            false_or, ne_eq, not_false_iff, true_and] at this ⊢
          tauto
        have hG' : ∀ kn2 ∈ rest,
            (pol kn2.1 kn2.2).1 = PolicyReport.liftQuarantine → kn2.1 ∈ q.erase k := by
          intro kn2 h2 hlift
          have hne : kn2.1 ≠ k := fun he => hknotrest kn2 h2 he.symm
          exact Finset.mem_erase.mpr ⟨hne, hG kn2 (List.mem_cons_of_mem _ h2) hlift⟩
        have hrem' : ∀ x ∈ rem, x ∉ Insert.insert k av ∪ nr ∪ q.erase k := by
          intro x hx hxm
          have hxU := hrem x hx
          have hxk : x ≠ k := by
            intro he
            subst he
            exact hxU hkU
          simp only [Finset.mem_union, Finset.mem_erase, Finset.mem_insert, hxk,
            false_or, ne_eq, not_false_iff, true_and] at hxm
          exact hxU (by
            simp only [Finset.mem_union]
            tauto)
        obtain ⟨r1, r2, r3, r4⟩ := ih (Insert.insert k av) nr (q.erase k) rem
          hN.2 hd1' hd2' hd3' hcov' hG' hrem'
          (resetLoop pol rest (Insert.insert k av) nr (q.erase k) rem) rfl
        refine ⟨by simp [r1], r2, ?_, r4⟩
        rw [r3]
        ext x
        by_cases hx : x = k
        · subst hx
          have hU := hkU
          simp only [Finset.mem_union] at hU
          simp only [Finset.mem_sdiff, Finset.mem_union, Finset.mem_erase,
            Finset.mem_insert, List.mem_toFinset]
          tauto
        · simp only [Finset.mem_sdiff, Finset.mem_union, Finset.mem_erase,
            Finset.mem_insert, List.mem_toFinset, hx, ne_eq, not_false_iff, true_and,
            false_or]
      · rw [Bool.not_eq_true] at haddr
        simp [haddr] at hout
        subst hout
        have hd1' : av ∩ Insert.insert k nr = ∅ := by
          rw [inter_eq_empty_iff]
          intro x hx hx2
          rcases Finset.mem_insert.mp hx2 with hh | hh
          · exact hkav (hh ▸ hx)
          · exact inter_eq_empty_iff.mp hd1 x hx hh
        have hd2' : av ∩ q.erase k = ∅ := by
          rw [inter_eq_empty_iff]
          intro x hx hx2
          rw [Finset.mem_erase] at hx2
          exact inter_eq_empty_iff.mp hd2 x hx hx2.2
        have hd3' : Insert.insert k nr ∩ q.erase k = ∅ := by
          rw [inter_eq_empty_iff]
          intro x hx hx2
          rw [Finset.mem_erase] at hx2
          rcases Finset.mem_insert.mp hx with hh | hh
          · exact hx2.1 hh
          · exact inter_eq_empty_iff.mp hd3 x hh hx2.2
        have hcov' : ∀ kn2 ∈ rest, kn2.1 ∈ av ∪ Insert.insert k nr ∪ q.erase k := by
          intro kn2 h2
          have := hcov kn2 (List.mem_cons_of_mem _ h2)
          have hne : kn2.1 ≠ k := fun he => hknotrest kn2 h2 he.symm
          simp only [Finset.mem_union, Finset.mem_erase, Finset.mem_insert, hne,
            false_or, ne_eq, not_false_iff, true_and] at this ⊢
          tauto
        have hG' : ∀ kn2 ∈ rest,
            (pol kn2.1 kn2.2).1 = PolicyReport.liftQuarantine → kn2.1 ∈ q.erase k := by
          intro kn2 h2 hlift
          have hne : kn2.1 ≠ k := fun he => hknotrest kn2 h2 he.symm
          exact Finset.mem_erase.mpr ⟨hne, hG kn2 (List.mem_cons_of_mem _ h2) hlift⟩
        have hrem' : ∀ x ∈ rem, x ∉ av ∪ Insert.insert k nr ∪ q.erase k := by
          intro x hx hxm
          have hxU := hrem x hx
          have hxk : x ≠ k := by
            intro he
            subst he
            exact hxU hkU
          simp only [Finset.mem_union, Finset.mem_erase, Finset.mem_insert, hxk,
            false_or, ne_eq, not_false_iff, true_and] at hxm
          exact hxU (by
            simp only [Finset.mem_union]
            tauto)
        obtain ⟨r1, r2, r3, r4⟩ := ih av (Insert.insert k nr) (q.erase k) rem
          hN.2 hd1' hd2' hd3' hcov' hG' hrem'
          (resetLoop pol rest av (Insert.insert k nr) (q.erase k) rem) rfl
        refine ⟨by simp [r1], r2, ?_, r4⟩
        rw [r3]
        ext x
        by_cases hx : x = k
        · subst hx
          have hU := hkU
          simp only [Finset.mem_union] at hU
          simp only [Finset.mem_sdiff, Finset.mem_union, Finset.mem_erase,
            Finset.mem_insert, List.mem_toFinset]
          tauto
        · simp only [Finset.mem_sdiff, Finset.mem_union, Finset.mem_erase,
            Finset.mem_insert, List.mem_toFinset, hx, ne_eq, not_false_iff, true_and,
            false_or]

/-- During the `Nodes::reset` pass, when the policy never mutates a node's
address, membership of the reachability sets keeps matching the address
recorded in the ghost map `A`, and the rebuilt list keeps its addresses. -/
theorem resetLoop_addr (pol : Id → Node → PolicyReport × Node)
    (A : Id → Option (Option Address))
    (hAP : ∀ k nn, ((pol k nn).2).address = nn.address) :
    ∀ (l : List (Id × Node)) (av nr q : Finset Id) (rem : List Id),
      (∀ kn ∈ l, A kn.1 = some kn.2.address) →
      (∀ x ∈ av, ∃ a, A x = some (some a)) →
      (∀ x ∈ nr, A x = some Option.none) →
      ∀ out : ResetOut, resetLoop pol l av nr q rem = out →
      ((∀ kn ∈ out.list, A kn.1 = some kn.2.address) ∧
       (∀ x ∈ out.av, ∃ a, A x = some (some a)) ∧
       (∀ x ∈ out.nr, A x = some Option.none)) := by
  intro l
  induction l with
  | nil =>
    intro av nr q rem hAl hAav hAnr out hout
    rw [resetLoop] at hout
    subst hout
    exact ⟨by simp, hAav, hAnr⟩
  | cons kn rest ih =>
    obtain ⟨k, n⟩ := kn
    intro av nr q rem hAl hAav hAnr out hout
    have hAk : A k = some n.address := hAl (k, n) (List.mem_cons_self _ _)
    have hAl2 : ∀ kn2 ∈ rest, A kn2.1 = some kn2.2.address :=
      fun kn2 h2 => hAl kn2 (List.mem_cons_of_mem _ h2)
    cases hpr : (pol k n).1 with
    | none =>
      rw [resetLoop] at hout
      simp only [hpr] at hout
      subst hout
      obtain ⟨r1, r2, r3⟩ := ih av nr q rem hAl2 hAav hAnr _ rfl
      refine ⟨?_, r2, r3⟩
      intro kn2 h2
      rcases List.mem_cons.mp h2 with hh | hh
      · rw [hh]
        show A k = some ((pol k n).2).address
        rw [hAP k n]
        exact hAk
      · exact r1 kn2 hh
    | forget =>
      rw [resetLoop] at hout
      simp only [hpr] at hout
      subst hout
      obtain ⟨r1, r2, r3⟩ := ih (av.erase k) (nr.erase k) (q.erase k) (rem ++ [k])
        hAl2 (fun x hx => hAav x (Finset.mem_of_mem_erase hx))
        (fun x hx => hAnr x (Finset.mem_of_mem_erase hx)) _ rfl
      refine ⟨?_, r2, r3⟩
      intro kn2 h2
      rcases List.mem_cons.mp h2 with hh | hh
      · rw [hh]
        show A k = some ((pol k n).2).address
        rw [hAP k n]
        exact hAk
      · exact r1 kn2 hh
    | quarantine =>
      rw [resetLoop] at hout
      simp only [hpr] at hout
      subst hout
      obtain ⟨r1, r2, r3⟩ := ih (av.erase k) (nr.erase k) (Insert.insert k q) rem
        hAl2 (fun x hx => hAav x (Finset.mem_of_mem_erase hx))
        (fun x hx => hAnr x (Finset.mem_of_mem_erase hx)) _ rfl
      refine ⟨?_, r2, r3⟩
      intro kn2 h2
      rcases List.mem_cons.mp h2 with hh | hh
      · rw [hh]
        show A k = some ((pol k n).2).address
        rw [hAP k n]
        exact hAk
      · exact r1 kn2 hh
    | liftQuarantine =>
      rw [resetLoop] at hout
      simp only [hpr] at hout
      by_cases haddr : ((pol k n).2).address.isSome = true
      · simp [haddr] at hout
        subst hout
        have hksome : ∃ a, n.address = some a := by
          rw [← hAP k n]
          exact Option.isSome_iff_exists.mp haddr
        have hAav' : ∀ x ∈ Insert.insert k av, ∃ a, A x = some (some a) := by
          intro x hx
          rcases Finset.mem_insert.mp hx with hh | hh
          · subst hh
            obtain ⟨a, ha⟩ := hksome
            exact ⟨a, by rw [hAk, ha]⟩
          · exact hAav x hh
        obtain ⟨r1, r2, r3⟩ := ih (Insert.insert k av) nr (q.erase k) rem
          hAl2 hAav' hAnr _ rfl
        refine ⟨?_, r2, r3⟩
        intro kn2 h2
        rcases List.mem_cons.mp h2 with hh | hh
        · rw [hh]
          show A k = some ((pol k n).2).address
          rw [hAP k n]
          exact hAk
        · exact r1 kn2 hh
      · rw [Bool.not_eq_true] at haddr
        simp [haddr] at hout
        subst hout
        have hknone : n.address = Option.none := by
          rw [← hAP k n]
          exact Option.not_isSome_iff_eq_none.mp (by simp [haddr])
        have hAnr' : ∀ x ∈ Insert.insert k nr, A x = some Option.none := by
          intro x hx
          rcases Finset.mem_insert.mp hx with hh | hh
          · subst hh
            rw [hAk, hknone]
          · exact hAnr x hh
        obtain ⟨r1, r2, r3⟩ := ih av (Insert.insert k nr) (q.erase k) rem
          hAl2 hAav hAnr' _ rfl
        refine ⟨?_, r2, r3⟩
        intro kn2 h2
        rcases List.mem_cons.mp h2 with hh | hh
        · rw [hh]
          show A k = some ((pol k n).2).address
          rw [hAP k n]
          exact hAk
        · exact r1 kn2 hh

/-- `Nodes::reset` preserves the registry invariants, provided any
`LiftQuarantine` report is issued for a currently quarantined Id; when the
policy never mutates addresses it also preserves the address
classification. -/
theorem reset_spec {s : Nodes} {pol : Id → Node → PolicyReport × Node}
    (hN : KeysNodup s) (hD : SetsDisjoint s) (hC : SetsCover s)
    (hG : ∀ kn ∈ s.all,
      (pol kn.1 kn.2).1 = PolicyReport.liftQuarantine → kn.1 ∈ s.quarantined) :
    KeysNodup (s.reset pol) ∧ SetsDisjoint (s.reset pol) ∧ SetsCover (s.reset pol) ∧
    ((∀ k nn, ((pol k nn).2).address = nn.address) →
      AddrInv s → AddrInv (s.reset pol)) := by
  have hcovl : ∀ kn ∈ s.all, kn.1 ∈ s.available ∪ s.not_reachable ∪ s.quarantined := by
    intro kn h2
    rw [hC, mem_cacheKeys]
    exact List.mem_map.mpr ⟨kn, h2, rfl⟩
  obtain ⟨r1, r2, r3, _⟩ := resetLoop_basic pol s.all s.available s.not_reachable
    s.quarantined [] hN hD.1 hD.2.1 hD.2.2 hcovl hG (by simp) _ rfl
  have hNout : ((resetLoop pol s.all s.available s.not_reachable s.quarantined
      []).list.map Prod.fst).Nodup := by
    rw [r1]
    exact hN
  have hKout : cacheKeys (resetLoop pol s.all s.available s.not_reachable
      s.quarantined []).list = cacheKeys s.all := by
    unfold cacheKeys
    rw [r1]
  have hCeq : s.available ∪ s.not_reachable ∪ s.quarantined = cacheKeys s.all := hC
  have hre : s.reset pol =
      { all := popAll
          (resetLoop pol s.all s.available s.not_reachable s.quarantined []).list
          (resetLoop pol s.all s.available s.not_reachable s.quarantined []).rem,
        cap := s.cap,
        quarantined := (resetLoop pol s.all s.available s.not_reachable
          s.quarantined []).q,
        not_reachable := (resetLoop pol s.all s.available s.not_reachable
          s.quarantined []).nr,
        available := (resetLoop pol s.all s.available s.not_reachable
          s.quarantined []).av } := rfl
  rw [hre]
  refine ⟨?_, ?_, ?_, ?_⟩
  · exact nodup_keys_popAll hNout
  · exact r2
  · show (resetLoop pol s.all s.available s.not_reachable s.quarantined []).av ∪
        (resetLoop pol s.all s.available s.not_reachable s.quarantined []).nr ∪
        (resetLoop pol s.all s.available s.not_reachable s.quarantined []).q =
      cacheKeys (popAll
        (resetLoop pol s.all s.available s.not_reachable s.quarantined []).list
        (resetLoop pol s.all s.available s.not_reachable s.quarantined []).rem)
    rw [cacheKeys_popAll _ _ hNout, hKout, ← hCeq]
    exact r3
  · intro hAP hA
    set out := resetLoop pol s.all s.available s.not_reachable s.quarantined []
      with hout_def
    obtain ⟨a1, a2, a3⟩ := resetLoop_addr pol
      (fun x => (cacheLookup s.all x).map Node.address) hAP s.all
      s.available s.not_reachable s.quarantined []
      (by
        intro kn h2
        dsimp only
        rw [cacheLookup_of_mem hN h2]
        rfl)
      (by
        intro x hx
        obtain ⟨nn, hnn1, hnn2⟩ := entryHasAddress_iff.mp (hA.1 x hx)
        obtain ⟨a, ha⟩ := Option.isSome_iff_exists.mp hnn2
        exact ⟨a, by dsimp only; rw [hnn1]; simp [ha]⟩)
      (by
        intro x hx
        obtain ⟨nn, hnn1, hnn2⟩ := entryLacksAddress_iff.mp (hA.2 x hx)
        dsimp only
        rw [hnn1]
        simp [hnn2])
      out rfl
    have hnotrem : ∀ x, x ∈ out.av ∪ out.nr ∪ out.q → x ∉ out.rem := by
      intro x hx hr
      rw [r3] at hx
      rw [Finset.mem_sdiff] at hx
      exact hx.2 (List.mem_toFinset.mpr hr)
    have hlookout : ∀ x, x ∈ out.av ∪ out.nr ∪ out.q →
        cacheLookup (popAll out.list out.rem) x = cacheLookup out.list x := by
      intro x hx
      exact cacheLookup_popAll_not_mem (hnotrem x hx) out.list
    have hmemkeys : ∀ x, x ∈ out.av ∪ out.nr ∪ out.q → x ∈ cacheKeys out.list := by
      intro x hx
      rw [hKout, ← hC]
      rw [r3, Finset.mem_sdiff] at hx
      exact hx.1
    constructor
    · intro x hx
      have hxu : x ∈ out.av ∪ out.nr ∪ out.q := by
        simp only [Finset.mem_union]
        exact Or.inl (Or.inl hx)
      rw [entryHasAddress_iff]
      have hk := hmemkeys x hxu
      rw [← cacheLookup_isSome_iff] at hk
      obtain ⟨m, hm⟩ := Option.isSome_iff_exists.mp hk
      have ha1 : Option.map Node.address (cacheLookup s.all x) = some m.address :=
        a1 (x, m) (cacheLookup_mem hm)
      obtain ⟨a, ha⟩ := a2 x hx
      rw [ha1] at ha
      have hma : m.address = some a := Option.some.inj ha
      refine ⟨m, ?_, by rw [hma]; rfl⟩
      show cacheLookup (popAll out.list out.rem) x = some m
      rw [hlookout x hxu]
      exact hm
    · intro x hx
      have hxu : x ∈ out.av ∪ out.nr ∪ out.q := by
        simp only [Finset.mem_union]
        exact Or.inl (Or.inr hx)
      rw [entryLacksAddress_iff]
      have hk := hmemkeys x hxu
      rw [← cacheLookup_isSome_iff] at hk
      obtain ⟨m, hm⟩ := Option.isSome_iff_exists.mp hk
      have ha1 : Option.map Node.address (cacheLookup s.all x) = some m.address :=
        a1 (x, m) (cacheLookup_mem hm)
      have ha := a3 x hx
      rw [ha1] at ha
      have hma : m.address = Option.none := Option.some.inj ha
      refine ⟨m, ?_, hma⟩
      show cacheLookup (popAll out.list out.rem) x = some m
      rw [hlookout x hxu]
      exact hm

theorem cachePut_fresh {l : List (Id × Node)} {cap : Nat} {x : Id} {n : Node}
    (hvac : cacheLookup l x = Option.none) (hlen : l.length ≠ cap) :
    cachePut l cap x n = (Option.none, (x, n) :: l) := by
  simp [cachePut, hvac, hlen]

theorem entryInsert_eq {s : Nodes} {n : Node} {l2 : List (Id × Node)}
    {av2 nr2 q2 : Finset Id}
    (hvac : cacheLookup s.all n.id = Option.none)
    (hev : evictLoop s.cap s.all
      (if n.address.isSome then Insert.insert n.id s.available else s.available)
      (if n.address.isSome then s.not_reachable else Insert.insert n.id s.not_reachable)
      s.quarantined = some (l2, av2, nr2, q2)) :
    s.entryInsert n = some
      { all := (cachePut l2 s.cap n.id n).2, cap := s.cap,
        quarantined := q2, not_reachable := nr2, available := av2 } := by
  simp [Nodes.entryInsert, Nodes.insert, hvac, hev]

theorem entryInsert_eq_none {s : Nodes} {n : Node}
    (hvac : cacheLookup s.all n.id = Option.none)
    (hev : evictLoop s.cap s.all
      (if n.address.isSome then Insert.insert n.id s.available else s.available)
      (if n.address.isSome then s.not_reachable else Insert.insert n.id s.not_reachable)
      s.quarantined = Option.none) :
    s.entryInsert n = Option.none := by
  simp [Nodes.entryInsert, Nodes.insert, hvac, hev]

/-- Combined behaviour of the eviction loop followed by the `put` of a fresh
Id: the new entry heads the list, keys stay distinct, the sets stay disjoint
and cover the new key set, and the fresh Id keeps its pre-eviction
classification. -/
theorem insert_core_spec {cap : Nat} {l : List (Id × Node)} {avP nrP q : Finset Id}
    {x : Id} {n : Node} {out : List (Id × Node) × Finset Id × Finset Id × Finset Id}
    (hev : evictLoop cap l avP nrP q = some out)
    (hN : (l.map Prod.fst).Nodup)
    (hd1 : avP ∩ nrP = ∅) (hd2 : avP ∩ q = ∅) (hd3 : nrP ∩ q = ∅)
    (hcov : avP ∪ nrP ∪ q = cacheKeys l ∪ {x})
    (hx : x ∉ cacheKeys l) :
    ((cachePut out.1 cap x n).2 = (x, n) :: out.1 ∧
     (((x, n) :: out.1).map Prod.fst).Nodup ∧
     (out.2.1 ∩ out.2.2.1 = ∅ ∧ out.2.1 ∩ out.2.2.2 = ∅ ∧
      out.2.2.1 ∩ out.2.2.2 = ∅) ∧
     out.2.1 ∪ out.2.2.1 ∪ out.2.2.2 = cacheKeys ((x, n) :: out.1) ∧
     ((x ∈ out.2.1 ↔ x ∈ avP) ∧ (x ∈ out.2.2.1 ↔ x ∈ nrP)) ∧
     (∀ y ∈ cacheKeys out.1, cacheLookup out.1 y = cacheLookup l y) ∧
     (out.2.1 ⊆ avP ∧ out.2.2.1 ⊆ nrP) ∧
     out.1.length < cap) := by
  have hX : ∀ y ∈ ({x} : Finset Id), y ∉ cacheKeys l := by
    intro y hy
    rw [Finset.mem_singleton] at hy
    subst hy
    exact hx
  obtain ⟨c1, c2, c3, c4, c5, c6, c7, c8⟩ :=
    evictLoop_spec cap {x} l.length l avP nrP q out (Nat.le_refl _) hev hN
      hd1 hd2 hd3 hcov hX
  have hxout : x ∉ cacheKeys out.1 := c7 x (Finset.mem_singleton_self x)
  have hvac2 : cacheLookup out.1 x = Option.none := cacheLookup_eq_none_iff.mpr hxout
  have hlen2 : out.1.length ≠ cap := Nat.ne_of_lt c2
  refine ⟨?_, ?_, c5, ?_, ?_, ?_, ⟨c4.1, c4.2.1⟩, c2⟩
  · rw [cachePut_fresh hvac2 hlen2]
  · rw [List.map_cons, List.nodup_cons]
    exact ⟨by simpa [mem_cacheKeys] using hxout, c1⟩
  · rw [c6]
    ext y
    by_cases hy : y = x
    · subst hy
      simp
    · simp [hy]
  · exact ⟨(c8 x (Finset.mem_singleton_self x)).1, (c8 x (Finset.mem_singleton_self x)).2.1⟩
  · intro y hy
    exact cacheLookup_sublist c3 hN y hy

/-- `Entry::or_insert` preserves the registry invariants. -/
theorem entryInsert_spec {s : Nodes} {n : Node} {s' : Nodes}
    (hm : s.entryInsert n = some s')
    (hN : KeysNodup s) (hD : SetsDisjoint s) (hC : SetsCover s) :
    KeysNodup s' ∧ SetsDisjoint s' ∧ SetsCover s' ∧ (AddrInv s → AddrInv s') := by
  by_cases hocc : (cacheLookup s.all n.id).isSome = true
  · have heq : s.entryInsert n = some s := by
      simp [Nodes.entryInsert, hocc]
    rw [heq] at hm
    injection hm with hm
    subst hm
    exact ⟨hN, hD, hC, fun hA => hA⟩
  · have hvac : cacheLookup s.all n.id = Option.none := by
      cases h : cacheLookup s.all n.id
      · rfl
      · rw [h] at hocc
        simp at hocc
    have hnid : n.id ∉ cacheKeys s.all := cacheLookup_eq_none_iff.mp hvac
    have hd1 := inter_eq_empty_iff.mp hD.1
    have hd2 := inter_eq_empty_iff.mp hD.2.1
    have hd3 := inter_eq_empty_iff.mp hD.2.2
    have hCx := Finset.ext_iff.mp hC
    have hnidU : n.id ∉ s.available ∧ n.id ∉ s.not_reachable ∧ n.id ∉ s.quarantined := by
      have h0 := (hCx n.id).mp
      refine ⟨fun hh => ?_, fun hh => ?_, fun hh => ?_⟩ <;>
      · apply hnid
        apply h0
        simp only [Finset.mem_union]
        tauto
    have hPd1 : (if n.address.isSome then Insert.insert n.id s.available
          else s.available) ∩
        (if n.address.isSome then s.not_reachable
          else Insert.insert n.id s.not_reachable) = ∅ := by
      rw [inter_eq_empty_iff]
      intro y hy hy2
      by_cases hb : n.address.isSome = true
      · rw [if_pos hb] at hy
        rw [if_pos hb] at hy2
        rcases Finset.mem_insert.mp hy with hh | hh
        · exact hnidU.2.1 (hh ▸ hy2)
        · exact hd1 y hh hy2
      · rw [if_neg hb] at hy
        rw [if_neg hb] at hy2
        rcases Finset.mem_insert.mp hy2 with hh | hh
        · exact hnidU.1 (hh ▸ hy)
        · exact hd1 y hy hh
    have hPd2 : (if n.address.isSome then Insert.insert n.id s.available
          else s.available) ∩ s.quarantined = ∅ := by
      rw [inter_eq_empty_iff]
      intro y hy hy2
      by_cases hb : n.address.isSome = true
      · rw [if_pos hb] at hy
        rcases Finset.mem_insert.mp hy with hh | hh
        · exact hnidU.2.2 (hh ▸ hy2)
        · exact hd2 y hh hy2
      · rw [if_neg hb] at hy
        exact hd2 y hy hy2
    have hPd3 : (if n.address.isSome then s.not_reachable
          else Insert.insert n.id s.not_reachable) ∩ s.quarantined = ∅ := by
      rw [inter_eq_empty_iff]
      intro y hy hy2
      by_cases hb : n.address.isSome = true
      · rw [if_pos hb] at hy
        exact hd3 y hy hy2
      · rw [if_neg hb] at hy
        rcases Finset.mem_insert.mp hy with hh | hh
        · exact hnidU.2.2 (hh ▸ hy2)
        · exact hd3 y hh hy2
    have hPcov : (if n.address.isSome then Insert.insert n.id s.available
          else s.available) ∪
        (if n.address.isSome then s.not_reachable
          else Insert.insert n.id s.not_reachable) ∪ s.quarantined =
        cacheKeys s.all ∪ {n.id} := by
      ext y
      have h0 := hCx y
      by_cases hb : n.address.isSome = true <;>
        [rw [if_pos hb, if_pos hb]; rw [if_neg hb, if_neg hb]] <;>
      · by_cases hy : y = n.id
        · subst hy
          simp [hnidU.1, hnidU.2.1, hnidU.2.2]
        · simp only [Finset.mem_union, Finset.mem_insert, Finset.mem_singleton, hy,
            false_or, or_false] at h0 ⊢
          exact h0
    cases hev : evictLoop s.cap s.all
        (if n.address.isSome then Insert.insert n.id s.available else s.available)
        (if n.address.isSome then s.not_reachable
          else Insert.insert n.id s.not_reachable)
        s.quarantined with
    | none =>
      rw [entryInsert_eq_none hvac hev] at hm
      exact Option.noConfusion hm
    | some out =>
      obtain ⟨l2, av2, nr2, q2⟩ := out
      rw [entryInsert_eq hvac hev] at hm
      injection hm with hm
      subst hm
      obtain ⟨p1, p2, p3, p4, p5, p6, p7, p8⟩ :=
        insert_core_spec hev hN hPd1 hPd2 hPd3 hPcov hnid
      refine ⟨?_, p3, ?_, ?_⟩
      · show (((cachePut l2 s.cap n.id n).2).map Prod.fst).Nodup
        rw [p1]
        exact p2
      · show _ ∪ _ ∪ _ = cacheKeys (cachePut l2 s.cap n.id n).2
        rw [p1]
        exact p4
      · intro hA
        apply addrInv_build
        · intro y hy
          by_cases hyx : y = n.id
          · subst hyx
            have hmem := p5.1.mp hy
            have hb : n.address.isSome = true := by
              by_cases hb : n.address.isSome = true
              · exact hb
              · rw [if_neg hb] at hmem
                exact absurd hmem hnidU.1
            refine ⟨n, ?_, hb⟩
            rw [p1, cacheLookup_cons, if_pos rfl]
          · have hyav : y ∈ s.available := by
              have := p7.1 hy
              by_cases hb : n.address.isSome = true
              · rw [if_pos hb] at this
                rcases Finset.mem_insert.mp this with hh | hh
                · exact absurd hh hyx
                · exact hh
              · rw [if_neg hb] at this
                exact this
            obtain ⟨nn, hnn1, hnn2⟩ := entryHasAddress_iff.mp (hA.1 y hyav)
            have hykeys : y ∈ cacheKeys l2 := by
              have : y ∈ av2 ∪ nr2 ∪ q2 := by
                simp only [Finset.mem_union]
                exact Or.inl (Or.inl hy)
              rw [p4] at this
              rcases Finset.mem_insert.mp (by simpa using this) with hh | hh
              · exact absurd hh hyx
              · exact hh
            refine ⟨nn, ?_, hnn2⟩
            rw [p1, cacheLookup_cons, if_neg (fun hh => hyx hh.symm), p6 y hykeys]
            exact hnn1
        · intro y hy
          by_cases hyx : y = n.id
          · subst hyx
            have hmem := p5.2.mp hy
            have hb : ¬ n.address.isSome = true := by
              by_cases hb : n.address.isSome = true
              · rw [if_pos hb] at hmem
                exact absurd hmem hnidU.2.1
              · exact hb
            have hbn : n.address = Option.none := by
              cases ha : n.address
              · rfl
              · rw [ha] at hb
                simp at hb
            refine ⟨n, ?_, hbn⟩
            rw [p1, cacheLookup_cons, if_pos rfl]
          · have hynr : y ∈ s.not_reachable := by
              have := p7.2 hy
              by_cases hb : n.address.isSome = true
              · rw [if_pos hb] at this
                exact this
              · rw [if_neg hb] at this
                rcases Finset.mem_insert.mp this with hh | hh
                · exact absurd hh hyx
                · exact hh
            obtain ⟨nn, hnn1, hnn2⟩ := entryLacksAddress_iff.mp (hA.2 y hynr)
            have hykeys : y ∈ cacheKeys l2 := by
              have : y ∈ av2 ∪ nr2 ∪ q2 := by
                simp only [Finset.mem_union]
                exact Or.inl (Or.inr hy)
              rw [p4] at this
              rcases Finset.mem_insert.mp (by simpa using this) with hh | hh
              · exact absurd hh hyx
              · exact hh
            refine ⟨nn, ?_, hnn2⟩
            rw [p1, cacheLookup_cons, if_neg (fun hh => hyx hh.symm), p6 y hykeys]
            exact hnn1

theorem execOp_spec {s : Nodes} {op : RegOp} {s' : Nodes}
    (hm : execOp s op = some s')
    (hN : KeysNodup s) (hD : SetsDisjoint s) (hC : SetsCover s) (hG : opGuard s op) :
    KeysNodup s' ∧ SetsDisjoint s' ∧ SetsCover s' ∧
    (opAddrPres op → AddrInv s → AddrInv s') := by
  cases op with
  | opInsert n =>
    obtain ⟨a, b, c, d⟩ := entryInsert_spec hm hN hD hC
    exact ⟨a, b, c, fun _ => d⟩
  | opModify id pol f =>
    cases hmod : s.modify id pol f with
    | none =>
      have heq : execOp s (RegOp.opModify id pol f) = some s := by
        simp [execOp, hmod]
      rw [heq] at hm
      injection hm with hm
      subst hm
      exact ⟨hN, hD, hC, fun _ hA => hA⟩
    | some r =>
      obtain ⟨rep, s2⟩ := r
      have heq : execOp s (RegOp.opModify id pol f) = some s2 := by
        simp [execOp, hmod]
      rw [heq] at hm
      injection hm with hm
      subst hm
      obtain ⟨a, b, c, d⟩ := modify_spec hmod hN hD hC hG
      exact ⟨a, b, c, fun _ hA => d hA⟩
  | opReset pol =>
    have heq : execOp s (RegOp.opReset pol) = some (s.reset pol) := rfl
    rw [heq] at hm
    injection hm with hm
    subst hm
    obtain ⟨a, b, c, d⟩ := reset_spec hN hD hC hG
    exact ⟨a, b, c, fun hap hA => d hap hA⟩

theorem execOps_spec {ops : List RegOp} :
    ∀ {s s' : Nodes}, execOps s ops = some s' →
    KeysNodup s → SetsDisjoint s → SetsCover s → GuardedOps s ops →
    (KeysNodup s' ∧ SetsDisjoint s' ∧ SetsCover s' ∧
     ((∀ op ∈ ops, opAddrPres op) → AddrInv s → AddrInv s')) := by
  induction ops with
  | nil =>
    intro s s' hm hN hD hC _
    rw [execOps] at hm
    injection hm with hm
    subst hm
    exact ⟨hN, hD, hC, fun _ hA => hA⟩
  | cons op rest ih =>
    intro s s' hm hN hD hC hG
    rw [execOps] at hm
    cases hop : execOp s op with
    | none =>
      rw [hop] at hm
      exact Option.noConfusion hm
    | some s1 =>
      rw [hop] at hm
      obtain ⟨a, b, c, d⟩ := execOp_spec hop hN hD hC hG.1
      obtain ⟨a2, b2, c2, d2⟩ := ih hm a b c (hG.2 s1 hop)
      refine ⟨a2, b2, c2, fun hap hA => ?_⟩
      exact d2 (fun op2 h2 => hap op2 (List.mem_cons_of_mem _ h2))
        (d (hap op (List.mem_cons_self _ _)) hA)

theorem with_capacity_nodup (cap : Nat) : KeysNodup (Nodes.with_capacity cap) := by
  simp [KeysNodup, Nodes.with_capacity]

theorem with_capacity_disjoint (cap : Nat) : SetsDisjoint (Nodes.with_capacity cap) := by
  refine ⟨?_, ?_, ?_⟩ <;> simp [Nodes.with_capacity]

theorem with_capacity_cover (cap : Nat) : SetsCover (Nodes.with_capacity cap) := by
  show _ ∪ _ ∪ _ = _
  simp [Nodes.with_capacity, cacheKeys]

theorem with_capacity_addrInv (cap : Nat) : AddrInv (Nodes.with_capacity cap) := by
  constructor <;>
  · intro x hx
    simp [Nodes.with_capacity] at hx

/-! ### The concrete run refuting the unguarded C1/C2 invariants.

Insert a reachable node with Id 0, then modify it with a mutator that drops
its address while the policy reports `LiftQuarantine` (for a node that is
not quarantined). The `LiftQuarantine` arm inserts the Id into
`not_reachable` without removing it from `available`. -/

def nodeA : Node :=
  { profile := { pid := 0, pdata := 0 }, address := some 0, logs := [] }

def clearAddr : Node → Node := fun nn => { nn with address := Option.none }

def polLiftQ : Node → PolicyReport × Node :=
  fun nn => (PolicyReport.liftQuarantine, nn)

def polNoneRep : Id → Node → PolicyReport × Node :=
  fun _ nn => (PolicyReport.none, nn)

def cexOps : List RegOp := [RegOp.opInsert nodeA, RegOp.opModify 0 polLiftQ clearAddr]

def nodeB : Node :=
  { profile := { pid := 0, pdata := 0 }, address := Option.none,
    logs := [LogEvent.liftQuarantine] }

def cexState : Nodes :=
  { all := [(0, nodeB)], cap := 2, quarantined := ∅, not_reachable := {0},
    available := {0} }

def wOps : List RegOp := [RegOp.opInsert nodeA, RegOp.opReset polNoneRep]

def wState : Nodes :=
  { all := [(0, nodeA)], cap := 2, quarantined := ∅, not_reachable := ∅,
    available := {0} }

/-- C1: after a sequence of registry operations from `with_capacity`, the
claim as frozen (any policy, any mutator) is false: the two operations of
`cexOps` leave Id 0 in both `available` and `not_reachable`, so the three
sets are not pairwise disjoint. -/
theorem C1_counterexample :
    execOps (Nodes.with_capacity 2) cexOps = some cexState ∧
      ¬ (SetsDisjoint cexState ∧ SetsCover cexState) := by
  constructor
  · rfl
  · intro h
    have h0 := h.1.1
    have hmem : (0 : Id) ∈ cexState.available ∩ cexState.not_reachable := by decide
    rw [h0] at hmem
    exact absurd hmem (Finset.not_mem_empty 0)

/-- C1 (amended): for every sequence of registry operations (insertion
through a vacant entry, modify through an occupied entry, reset) starting
from `with_capacity`, in which every `LiftQuarantine` report is issued for
a currently quarantined Id, the sets `available`, `not_reachable` and
`quarantined` are pairwise disjoint and their union equals exactly the set
of Ids present in the bounded cache. -/
theorem C1_partition_invariant (cap : Nat) (ops : List RegOp) (s' : Nodes)
    (hG : GuardedOps (Nodes.with_capacity cap) ops)
    (hm : execOps (Nodes.with_capacity cap) ops = some s') :
    SetsDisjoint s' ∧ SetsCover s' := by
  obtain ⟨_, b, c, _⟩ := execOps_spec hm (with_capacity_nodup cap)
    (with_capacity_disjoint cap) (with_capacity_cover cap) hG
  exact ⟨b, c⟩

/-- C1 witness: a concrete guarded run (an insertion followed by a reset
whose policy always reports `None`) on which the amended invariant theorem
applies. -/
theorem C1_witness : SetsDisjoint wState ∧ SetsCover wState :=
  C1_partition_invariant 2 wOps wState
    (by
      refine ⟨trivial, fun s1 _ => ⟨?_, fun s2 _ => trivial⟩⟩
      intro kn _ hlift
      exact PolicyReport.noConfusion hlift)
    (by rfl)

/-- C2: the claim as frozen is false: `cexOps` uses a policy that never
mutates any node (in particular no address), yet leaves Id 0 in `available`
while its node's address is `None`. -/
theorem C2_counterexample :
    execOps (Nodes.with_capacity 2) cexOps = some cexState ∧ ¬ AddrInv cexState := by
  constructor
  · rfl
  · intro h
    have h0 := h.1 0 (by decide)
    have h1 : entryHasAddress cexState 0 = false := rfl
    rw [h0] at h1
    exact Bool.noConfusion h1

/-- C2 (amended): for every sequence of registry operations from
`with_capacity` whose policies never mutate a node's address and in which
every `LiftQuarantine` report is issued for a currently quarantined Id,
every Id in `available` maps to a node whose address is `Some` and every Id
in `not_reachable` maps to a node whose address is `None`. -/
theorem C2_address_invariant (cap : Nat) (ops : List RegOp) (s' : Nodes)
    (hG : GuardedOps (Nodes.with_capacity cap) ops)
    (hP : ∀ op ∈ ops, opAddrPres op)
    (hm : execOps (Nodes.with_capacity cap) ops = some s') :
    AddrInv s' := by
  obtain ⟨_, _, _, d⟩ := execOps_spec hm (with_capacity_nodup cap)
    (with_capacity_disjoint cap) (with_capacity_cover cap) hG
  exact d hP (with_capacity_addrInv cap)

/-- C2 witness: the amended address invariant applied to the concrete
guarded run `wOps`. -/
theorem C2_witness : AddrInv wState :=
  C2_address_invariant 2 wOps wState
    (by
      refine ⟨trivial, fun s1 _ => ⟨?_, fun s2 _ => trivial⟩⟩
      intro kn _ hlift
      exact PolicyReport.noConfusion hlift)
    (by
      intro op hop
      rcases List.mem_cons.mp hop with hh | hh
      · subst hh
        trivial
      · rcases List.mem_cons.mp hh with hh2 | hh2
        · subst hh2
          intro k nn
          rfl
        · simp at hh2)
    (by rfl)

theorem insert_eq {s : Nodes} {n : Node} {l2 : List (Id × Node)}
    {av2 nr2 q2 : Finset Id}
    (hev : evictLoop s.cap s.all
      (if n.address.isSome then Insert.insert n.id s.available else s.available)
      (if n.address.isSome then s.not_reachable else Insert.insert n.id s.not_reachable)
      s.quarantined = some (l2, av2, nr2, q2)) :
    s.insert n = some ((cachePut l2 s.cap n.id n).1,
      { all := (cachePut l2 s.cap n.id n).2, cap := s.cap,
        quarantined := q2, not_reachable := nr2, available := av2 }) := by
  simp [Nodes.insert, hev]

theorem insert_eq_none {s : Nodes} {n : Node}
    (hev : evictLoop s.cap s.all
      (if n.address.isSome then Insert.insert n.id s.available else s.available)
      (if n.address.isSome then s.not_reachable else Insert.insert n.id s.not_reachable)
      s.quarantined = Option.none) :
    s.insert n = Option.none := by
  simp [Nodes.insert, hev]

theorem evictLoop_isSome {cap : Nat} (hcap : 1 ≤ cap) :
    ∀ (N : Nat) (l : List (Id × Node)) (av nr q : Finset Id), l.length ≤ N →
      (evictLoop cap l av nr q).isSome = true := by
  intro N
  induction N with
  | zero =>
    intro l av nr q hlen
    have hl : l = [] := List.length_eq_zero.mp (Nat.le_zero.mp hlen)
    subst hl
    rw [evictLoop_of_lt (by simpa using hcap)]
    rfl
  | succ N ih =>
    intro l av nr q hlen
    by_cases hc : cap ≤ l.length
    · have hne : l ≠ [] := by
        intro he
        subst he
        simp at hc
        omega
      cases h2 : l.getLast? with
      | none => exact absurd (List.getLast?_eq_none_iff.mp h2) hne
      | some kv =>
        rw [evictLoop_step hc h2]
        apply ih
        rw [List.length_dropLast]
        omega
    · rw [evictLoop_of_lt (Nat.not_le.mp hc)]
      rfl

theorem evictLoop_cap_zero :
    ∀ (N : Nat) (l : List (Id × Node)) (av nr q : Finset Id), l.length ≤ N →
      evictLoop 0 l av nr q = Option.none := by
  intro N
  induction N with
  | zero =>
    intro l av nr q hlen
    have hl : l = [] := List.length_eq_zero.mp (Nat.le_zero.mp hlen)
    subst hl
    exact evictLoop_stuck (Nat.zero_le _) rfl
  | succ N ih =>
    intro l av nr q hlen
    cases h2 : l.getLast? with
    | none => exact evictLoop_stuck (Nat.zero_le _) h2
    | some kv =>
      have hne : l ≠ [] := by
        intro he
        rw [he] at h2
        simp at h2
      rw [evictLoop_step (Nat.zero_le _) h2]
      apply ih
      rw [List.length_dropLast]
      have := List.length_pos.mpr hne
      omega

/-- C10: inserting through a vacant entry terminates whenever the capacity
is at least one — the eviction loop strictly shrinks the cache while at or
above capacity, so `Nodes::insert` produces a result — and for capacity 0
the eviction loop never exits (the embedding returns `none` there). -/
theorem C10_insert_terminates (s : Nodes) (n : Node) :
    (1 ≤ s.cap → (s.insert n).isSome = true) ∧
    (s.cap = 0 → s.insert n = Option.none) := by
  constructor
  · intro hcap
    have h := evictLoop_isSome hcap s.all.length s.all
      (if n.address.isSome then Insert.insert n.id s.available else s.available)
      (if n.address.isSome then s.not_reachable else Insert.insert n.id s.not_reachable)
      s.quarantined (Nat.le_refl _)
    obtain ⟨out, hout⟩ := Option.isSome_iff_exists.mp h
    obtain ⟨l2, av2, nr2, q2⟩ := out
    rw [insert_eq hout]
    rfl
  · intro hcap
    apply insert_eq_none
    rw [hcap]
    exact evictLoop_cap_zero s.all.length s.all _ _ _ (Nat.le_refl _)

/-- C10 witness: a concrete capacity-2 registry accepts an insertion, and
the capacity-0 registry's insertion never completes. -/
theorem C10_witness :
    ((wState.insert nodeB).isSome = true) ∧
    ((Nodes.with_capacity 0).insert nodeB = Option.none) :=
  ⟨(C10_insert_terminates wState nodeB).1 (by decide),
   (C10_insert_terminates (Nodes.with_capacity 0) nodeB).2 rfl⟩

/-- C7: a `reset` whose policy always reports `None` (and never mutates the
node) leaves the registry unchanged, hence two consecutive such resets do
too. -/
theorem C7_reset_none_idempotent (s : Nodes) (pol : Id → Node → PolicyReport × Node)
    (hpol : ∀ k nn, pol k nn = (PolicyReport.none, nn)) :
    s.reset pol = s ∧ (s.reset pol).reset pol = s := by
  have loop : ∀ (l : List (Id × Node)) (av nr q : Finset Id) (rem : List Id),
      resetLoop pol l av nr q rem = ⟨l, av, nr, q, rem⟩ := by
    intro l
    induction l with
    | nil =>
      intro av nr q rem
      rw [resetLoop]
    | cons kn rest ih =>
      intro av nr q rem
      obtain ⟨k, n⟩ := kn
      rw [resetLoop]
      simp [hpol k n, ih]
  have key : ∀ s0 : Nodes, s0.reset pol = s0 := by
    intro s0
    unfold Nodes.reset
    rw [loop s0.all s0.available s0.not_reachable s0.quarantined []]
    rfl
  exact ⟨key s, by rw [key (s.reset pol), key s]⟩

/-- C7 witness: the idempotence theorem applied to a concrete one-node
registry and the constant-`None` policy. -/
theorem C7_witness :
    wState.reset polNoneRep = wState ∧
      (wState.reset polNoneRep).reset polNoneRep = wState :=
  C7_reset_none_idempotent wState polNoneRep (fun _ _ => rfl)

theorem modify_quarantine_props {s : Nodes} {id : Id} {n : Node}
    (hN : KeysNodup s) (hlook : cacheLookup s.all id = some n) :
    ∃ s1 : Nodes,
      s.modify id (fun nn => (PolicyReport.quarantine, nn)) (fun nn => nn) =
        some (PolicyReport.quarantine, s1) ∧
      id ∈ s1.quarantined ∧ id ∉ s1.available ∧ KeysNodup s1 ∧
      ∃ n1, cacheLookup s1.all id = some n1 ∧
        n1.logs = n.logs ++ [LogEvent.quarantine] ∧ n1.address = n.address := by
  have h := @modify_eq_of_quarantine s id (fun nn => (PolicyReport.quarantine, nn))
    (fun nn => nn) n hlook rfl
  refine ⟨_, h, ?_, ?_, ?_, ?_⟩
  · exact Finset.mem_insert_self _ _
  · exact Finset.not_mem_erase _ _
  · show ((cacheWrite _ _ _).map Prod.fst).Nodup
    rw [map_fst_cacheWrite]
    exact nodup_keys_cachePromote hN
  · refine ⟨{ n with logs := n.logs ++ [LogEvent.quarantine] }, ?_, rfl, rfl⟩
    exact cacheLookup_cacheWrite_self (by rw [cacheLookup_cachePromote, hlook]; rfl)

theorem modify_lift_props {s : Nodes} {id : Id} {n : Node}
    (hlook : cacheLookup s.all id = some n) :
    ∃ s2 : Nodes,
      s.modify id (fun nn => (PolicyReport.liftQuarantine, nn)) (fun nn => nn) =
        some (PolicyReport.liftQuarantine, s2) ∧
      (n.address.isSome = true → id ∈ s2.available) ∧
      (n.address.isSome = false → id ∈ s2.not_reachable) ∧
      id ∉ s2.quarantined ∧
      ∃ n2, cacheLookup s2.all id = some n2 ∧
        n2.logs = n.logs ++ [LogEvent.liftQuarantine] ∧ n2.address = n.address := by
  have h := @modify_eq_of_lift s id (fun nn => (PolicyReport.liftQuarantine, nn))
    (fun nn => nn) n hlook rfl
  refine ⟨_, h, ?_, ?_, ?_, ?_⟩
  · intro hb
    show id ∈ if n.address.isSome then Insert.insert id s.available else s.available
    rw [if_pos hb]
    exact Finset.mem_insert_self _ _
  · intro hb
    show id ∈ if n.address.isSome then s.not_reachable
      else Insert.insert id s.not_reachable
    rw [if_neg (by rw [hb]; simp)]
    exact Finset.mem_insert_self _ _
  · exact Finset.not_mem_erase _ _
  · refine ⟨{ n with logs := n.logs ++ [LogEvent.liftQuarantine] }, ?_, rfl, rfl⟩
    exact cacheLookup_cacheWrite_self (by rw [cacheLookup_cachePromote, hlook]; rfl)

theorem modify_forget_props {s : Nodes} {id : Id} {n : Node}
    (hN : KeysNodup s) (hlook : cacheLookup s.all id = some n) :
    ∃ s3 : Nodes,
      s.modify id (fun nn => (PolicyReport.forget, nn)) (fun nn => nn) =
        some (PolicyReport.forget, s3) ∧
      cacheLookup s3.all id = Option.none ∧
      id ∉ s3.available ∧ id ∉ s3.not_reachable ∧ id ∉ s3.quarantined := by
  have h := @modify_eq_of_forget s id (fun nn => (PolicyReport.forget, nn))
    (fun nn => nn) n hlook rfl
  refine ⟨_, h, ?_, ?_, ?_, ?_⟩
  · exact cacheLookup_cacheErase_self (nodup_keys_cachePromote hN)
  · exact Finset.not_mem_erase _ _
  · exact Finset.not_mem_erase _ _
  · exact Finset.not_mem_erase _ _

/-- C3: for a node currently in `available`, applying a `Quarantine` report
through `modify` moves its Id into `quarantined` and out of `available` and
appends a quarantine log event; a subsequent `LiftQuarantine` report moves
the Id back to `available` if the node still has an address and to
`not_reachable` otherwise (and out of `quarantined`), appending a
quarantine-lifted log event; a `Forget` report instead removes the Id from
the cache and from all three sets. -/
theorem C3_transitions {s : Nodes} {id : Id} {n : Node}
    (hN : KeysNodup s) (hav : id ∈ s.available)
    (hlook : cacheLookup s.all id = some n) :
    ∃ s1 s2 s3 : Nodes,
      s.modify id (fun nn => (PolicyReport.quarantine, nn)) (fun nn => nn) =
        some (PolicyReport.quarantine, s1) ∧
      id ∈ s1.quarantined ∧ id ∉ s1.available ∧
      (∃ n1, cacheLookup s1.all id = some n1 ∧
        n1.logs = n.logs ++ [LogEvent.quarantine] ∧ n1.address = n.address) ∧
      s1.modify id (fun nn => (PolicyReport.liftQuarantine, nn)) (fun nn => nn) =
        some (PolicyReport.liftQuarantine, s2) ∧
      (n.address.isSome = true → id ∈ s2.available) ∧
      (n.address.isSome = false → id ∈ s2.not_reachable) ∧
      id ∉ s2.quarantined ∧
      (∃ n2, cacheLookup s2.all id = some n2 ∧
        n2.logs = n.logs ++ [LogEvent.quarantine, LogEvent.liftQuarantine]) ∧
      s1.modify id (fun nn => (PolicyReport.forget, nn)) (fun nn => nn) =
        some (PolicyReport.forget, s3) ∧
      cacheLookup s3.all id = Option.none ∧
      id ∉ s3.available ∧ id ∉ s3.not_reachable ∧ id ∉ s3.quarantined := by
  obtain ⟨s1, he1, hq1, hnav1, hN1, n1, hlook1, hlogs1, haddr1⟩ :=
    modify_quarantine_props hN hlook
  obtain ⟨s2, he2, hav2, hnr2, hq2, n2, hlook2, hlogs2, _⟩ := modify_lift_props hlook1
  obtain ⟨s3, he3, hlook3, hav3, hnr3, hq3⟩ := modify_forget_props hN1 hlook1
  refine ⟨s1, s2, s3, he1, hq1, hnav1, ⟨n1, hlook1, hlogs1, haddr1⟩, he2,
    ?_, ?_, hq2, ⟨n2, hlook2, ?_⟩, he3, hlook3, hav3, hnr3, hq3⟩
  · intro hb
    exact hav2 (by rw [haddr1]; exact hb)
  · intro hb
    exact hnr2 (by rw [haddr1]; exact hb)
  · rw [hlogs2, hlogs1]
    simp

/-- C3 witness: the transition theorem applied to the concrete one-node
registry `wState`, whose node with Id 0 is available. -/
theorem C3_witness :
    ∃ s1 s2 s3 : Nodes,
      wState.modify 0 (fun nn => (PolicyReport.quarantine, nn)) (fun nn => nn) =
        some (PolicyReport.quarantine, s1) ∧
      (0 : Id) ∈ s1.quarantined ∧ (0 : Id) ∉ s1.available ∧
      (∃ n1, cacheLookup s1.all 0 = some n1 ∧
        n1.logs = nodeA.logs ++ [LogEvent.quarantine] ∧ n1.address = nodeA.address) ∧
      s1.modify 0 (fun nn => (PolicyReport.liftQuarantine, nn)) (fun nn => nn) =
        some (PolicyReport.liftQuarantine, s2) ∧
      (nodeA.address.isSome = true → (0 : Id) ∈ s2.available) ∧
      (nodeA.address.isSome = false → (0 : Id) ∈ s2.not_reachable) ∧
      (0 : Id) ∉ s2.quarantined ∧
      (∃ n2, cacheLookup s2.all 0 = some n2 ∧
        n2.logs = nodeA.logs ++ [LogEvent.quarantine, LogEvent.liftQuarantine]) ∧
      s1.modify 0 (fun nn => (PolicyReport.forget, nn)) (fun nn => nn) =
        some (PolicyReport.forget, s3) ∧
      cacheLookup s3.all 0 = Option.none ∧
      (0 : Id) ∉ s3.available ∧ (0 : Id) ∉ s3.not_reachable ∧
      (0 : Id) ∉ s3.quarantined :=
  C3_transitions (by show (wState.all.map Prod.fst).Nodup; simp [wState]) (by decide) rfl

theorem evictLoop_sublist_len {cap : Nat} :
    ∀ (N : Nat) (l : List (Id × Node)) (av nr q : Finset Id)
      (out : List (Id × Node) × Finset Id × Finset Id × Finset Id),
      l.length ≤ N → evictLoop cap l av nr q = some out →
      List.Sublist out.1 l ∧ out.1.length < cap := by
  intro N
  induction N with
  | zero =>
    intro l av nr q out hlen hev
    have hl : l = [] := List.length_eq_zero.mp (Nat.le_zero.mp hlen)
    subst hl
    by_cases hc : cap ≤ (0 : Nat)
    · have h0 : evictLoop cap ([] : List (Id × Node)) av nr q = Option.none :=
        evictLoop_stuck (by simpa using hc) rfl
      rw [h0] at hev
      exact Option.noConfusion hev
    · rw [evictLoop_of_lt (by simpa using Nat.not_le.mp hc)] at hev
      injection hev with hev
      subst hev
      exact ⟨List.Sublist.refl _, by simpa using Nat.not_le.mp hc⟩
  | succ N ih =>
    intro l av nr q out hlen hev
    by_cases hc : cap ≤ l.length
    · cases h2 : l.getLast? with
      | none =>
        rw [evictLoop_stuck hc h2] at hev
        exact Option.noConfusion hev
      | some kv =>
        rw [evictLoop_step hc h2] at hev
        obtain ⟨hs, hl2⟩ := ih l.dropLast _ _ _ out
          (by rw [List.length_dropLast]; omega) hev
        exact ⟨hs.trans (List.dropLast_sublist l), hl2⟩
    · rw [evictLoop_of_lt (Nat.not_le.mp hc)] at hev
      injection hev with hev
      subst hev
      exact ⟨List.Sublist.refl _, Nat.not_le.mp hc⟩

theorem cachePut_length_le {l : List (Id × Node)} {cap : Nat} {x : Id} {n : Node}
    (h : l.length < cap) : ((cachePut l cap x n).2).length ≤ cap := by
  unfold cachePut
  cases hl : cacheLookup l x with
  | some m =>
    dsimp only
    have hmem : (x, m) ∈ l := cacheLookup_mem hl
    have hlt : (cacheErase l x).length < l.length := by
      unfold cacheErase
      rw [List.length_eraseP_of_mem hmem (by simp)]
      have := List.length_pos.mpr (List.ne_nil_of_mem hmem)
      omega
    simp only [List.length_cons]
    omega
  | none =>
    dsimp only
    split
    · simp only [List.length_cons, List.length_dropLast]
      omega
    · simp only [List.length_cons]
      omega

/-- C4: inserting a brand-new node through a vacant entry into a registry
holding exactly `C` entries at capacity `C` (with `1 ≤ C`, as presupposed
by the existence of an entry to remove) evicts exactly one entry, the
least-recently-used one: the new cache is the new node followed by every
old entry except the last, and the evicted Id is absent from `available`,
`not_reachable`, `quarantined` and the cache. Moreover the tracked count
never exceeds `C` after any insertion. -/
theorem C4_eviction {C : Nat} :
    (∀ (s : Nodes) (n : Node), s.cap = C → s.all.length = C → 1 ≤ C →
      KeysNodup s → cacheLookup s.all n.id = Option.none →
      ∃ (kv : Id × Node) (s' : Nodes),
        s.all.getLast? = some kv ∧
        s.entryInsert n = some s' ∧
        s'.all = (n.id, n) :: s.all.dropLast ∧
        s'.all.length = C ∧
        kv.1 ∉ s'.available ∧ kv.1 ∉ s'.not_reachable ∧ kv.1 ∉ s'.quarantined ∧
        kv.1 ∉ cacheKeys s'.all ∧
        cacheKeys s'.all = Insert.insert n.id ((cacheKeys s.all).erase kv.1)) ∧
    (∀ (s : Nodes) (n : Node) (s' : Nodes), s.cap = C → s.all.length ≤ C →
      s.entryInsert n = some s' → s'.all.length ≤ C) := by
  constructor
  · intro s n hcap hlen hC hN hvac
    have hne : s.all ≠ [] := by
      intro he
      rw [he] at hlen
      simp at hlen
      omega
    cases h2 : s.all.getLast? with
    | none => exact absurd (List.getLast?_eq_none_iff.mp h2) hne
    | some kv =>
      obtain ⟨hk_not, hkeys⟩ := keys_of_getLast h2 hN
      have hdl : s.all.dropLast.length = C - 1 := by
        rw [List.length_dropLast, hlen]
      have hev : evictLoop s.cap s.all
          (if n.address.isSome then Insert.insert n.id s.available else s.available)
          (if n.address.isSome then s.not_reachable
            else Insert.insert n.id s.not_reachable)
          s.quarantined =
          some (s.all.dropLast,
            (if n.address.isSome then Insert.insert n.id s.available
              else s.available).erase kv.1,
            (if n.address.isSome then s.not_reachable
              else Insert.insert n.id s.not_reachable).erase kv.1,
            s.quarantined.erase kv.1) := by
        rw [evictLoop_step (by rw [hcap, hlen]) h2,
          evictLoop_of_lt (by rw [hdl, hcap]; omega)]
      have heq := entryInsert_eq hvac hev
      have hvac2 : cacheLookup s.all.dropLast n.id = Option.none := by
        rw [cacheLookup_eq_none_iff] at hvac ⊢
        intro hmem
        exact hvac (by rw [hkeys]; exact Finset.mem_insert_of_mem hmem)
      have hlen2 : s.all.dropLast.length ≠ s.cap := by
        rw [hdl, hcap]
        omega
      have hput := @cachePut_fresh s.all.dropLast s.cap n.id n hvac2 hlen2
      have hall : (cachePut s.all.dropLast s.cap n.id n).2 =
          (n.id, n) :: s.all.dropLast := by
        rw [hput]
      have hkdrop : kv.1 ∉ cacheKeys s.all.dropLast := by
        simpa [mem_cacheKeys] using hk_not
      have hkvne : kv.1 ≠ n.id := by
        intro he
        apply cacheLookup_eq_none_iff.mp hvac
        rw [← he, hkeys]
        exact Finset.mem_insert_self _ _
      refine ⟨kv, _, rfl, heq, hall, ?_, Finset.not_mem_erase _ _,
        Finset.not_mem_erase _ _, Finset.not_mem_erase _ _, ?_, ?_⟩
      · show ((cachePut s.all.dropLast s.cap n.id n).2).length = C
        rw [hall]
        simp only [List.length_cons, hdl]
        omega
      · show kv.1 ∉ cacheKeys (cachePut s.all.dropLast s.cap n.id n).2
        rw [hall, cacheKeys_cons]
        intro hmem
        rcases Finset.mem_insert.mp hmem with hh | hh
        · exact hkvne hh
        · exact hkdrop hh
      · show cacheKeys (cachePut s.all.dropLast s.cap n.id n).2 =
          Insert.insert n.id ((cacheKeys s.all).erase kv.1)
        rw [hall, cacheKeys_cons, hkeys, Finset.erase_insert hkdrop]
  · intro s n s' hcap hlen hm
    by_cases hocc : (cacheLookup s.all n.id).isSome = true
    · have heq : s.entryInsert n = some s := by
        simp [Nodes.entryInsert, hocc]
      rw [heq] at hm
      injection hm with hm
      subst hm
      exact hlen
    · have hvac : cacheLookup s.all n.id = Option.none := by
        cases h : cacheLookup s.all n.id
        · rfl
        · rw [h] at hocc
          simp at hocc
      cases hev : evictLoop s.cap s.all
          (if n.address.isSome then Insert.insert n.id s.available else s.available)
          (if n.address.isSome then s.not_reachable
            else Insert.insert n.id s.not_reachable)
          s.quarantined with
      | none =>
        rw [entryInsert_eq_none hvac hev] at hm
        exact Option.noConfusion hm
      | some out =>
        obtain ⟨l2, av2, nr2, q2⟩ := out
        rw [entryInsert_eq hvac hev] at hm
        injection hm with hm
        subst hm
        have hsub := evictLoop_sublist_len s.all.length s.all _ _ _ _
          (Nat.le_refl _) hev
        show ((cachePut l2 s.cap n.id n).2).length ≤ C
        rw [← hcap]
        exact cachePut_length_le hsub.2

def nodeX1 : Node := { profile := { pid := 1, pdata := 1 }, address := some 1, logs := [] }

def nodeX2 : Node :=
  { profile := { pid := 2, pdata := 2 }, address := Option.none, logs := [] }

def nodeX3 : Node := { profile := { pid := 3, pdata := 3 }, address := some 3, logs := [] }

def nodeX4 : Node := { profile := { pid := 4, pdata := 4 }, address := some 4, logs := [] }

/-- The registry of the spec's end-to-end scenario A: capacity 3, peers 1
(reachable), 2 (unreachable), 3 (reachable) inserted in that order. -/
def sB : Nodes :=
  { all := [(3, nodeX3), (2, nodeX2), (1, nodeX1)], cap := 3,
    quarantined := ∅, not_reachable := {2}, available := {3, 1} }

/-- C4 witness: the eviction theorem applied to the scenario-A registry at
capacity 3 and a fresh reachable peer 4; the least-recently-used peer 1 is
the evicted entry. -/
theorem C4_witness :
    ∃ (kv : Id × Node) (s' : Nodes),
      sB.all.getLast? = some kv ∧
      sB.entryInsert nodeX4 = some s' ∧
      s'.all = (nodeX4.id, nodeX4) :: sB.all.dropLast ∧
      s'.all.length = 3 ∧
      kv.1 ∉ s'.available ∧ kv.1 ∉ s'.not_reachable ∧ kv.1 ∉ s'.quarantined ∧
      kv.1 ∉ cacheKeys s'.all ∧
      cacheKeys s'.all = Insert.insert nodeX4.id ((cacheKeys sB.all).erase kv.1) :=
  (@C4_eviction 3).1 sB nodeX4 rfl rfl (by decide)
    (by show (sB.all.map Prod.fst).Nodup; simp [sB]) rfl

/-! ### Vicinity selection (C5, C6). -/

def proxZero : NodeProfile → NodeProfile → Nat := fun _ _ => 0

def toProfile : NodeProfile := { pid := 0, pdata := 0 }

def selfNode : Node := { profile := toProfile, address := some 0, logs := [] }

/-- C5: the claim as frozen — over every candidate list — is false:
`select_closest_nodes` performs no self-filtering, so when the candidate
list contains the target's own node, the target's Id is returned. -/
theorem C5_counterexample :
    toProfile.pid ∈ Vicinity.select_closest_nodes proxZero toProfile [selfNode] 1 := by
  simp [Vicinity.select_closest_nodes, selfNode, Node.id]

/-- C5 (amended): for every candidate list in which no candidate carries the
target's own Id (the callers `populate` and `gossips` filter the target out
upstream), and every permutation of it (modelling the shuffle and the
unstable sort), the Ids returned by `select_closest_nodes` never include the
target's own Id. -/
theorem C5_no_self (prox : NodeProfile → NodeProfile → Nat) (toP : NodeProfile)
    (candidates shuffled : List Node) (max : Nat)
    (hperm : List.Perm shuffled candidates)
    (hself : ∀ nd ∈ candidates, nd.id ≠ toP.pid) :
    toP.pid ∉ Vicinity.select_closest_nodes prox toP shuffled max := by
  intro hmem
  unfold Vicinity.select_closest_nodes at hmem
  rw [List.mem_map] at hmem
  obtain ⟨nd, hnd, hid⟩ := hmem
  have hnd2 : nd ∈ shuffled := by
    have h1 := List.mem_of_mem_take hnd
    rw [List.mem_mergeSort] at h1
    exact h1
  exact hself nd (hperm.mem_iff.mp hnd2) hid

/-- C5 witness: the amended theorem applied to a singleton candidate list
not containing the target. -/
theorem C5_witness :
    toProfile.pid ∉ Vicinity.select_closest_nodes proxZero toProfile [nodeX1] 1 :=
  C5_no_self proxZero toProfile [nodeX1] [nodeX1] 1 (List.Perm.refl _) (by decide)

/-- C6: for every permutation of the candidate list (modelling the shuffle
and the unstable tie order), `select_closest_nodes` returns at most
`min max |candidates|` Ids, and the returned Ids are the Ids of candidate
nodes listed in non-decreasing proximity to the target. -/
theorem C6_sorted_bounded (prox : NodeProfile → NodeProfile → Nat) (toP : NodeProfile)
    (candidates shuffled : List Node) (max : Nat)
    (hperm : List.Perm shuffled candidates) :
    (Vicinity.select_closest_nodes prox toP shuffled max).length ≤
      min max candidates.length ∧
    ∃ picked : List Node,
      Vicinity.select_closest_nodes prox toP shuffled max = picked.map Node.id ∧
      picked.Pairwise (fun a b => prox toP a.profile ≤ prox toP b.profile) ∧
      (∀ nd ∈ picked, nd ∈ candidates) := by
  constructor
  · unfold Vicinity.select_closest_nodes
    rw [List.length_map, List.length_take, List.length_mergeSort, hperm.length_eq]
  · refine ⟨_, rfl, ?_, ?_⟩
    · have hs : (shuffled.mergeSort
          (fun l r => decide (prox toP l.profile ≤ prox toP r.profile))).Pairwise
          (fun a b => decide (prox toP a.profile ≤ prox toP b.profile) = true) := by
        apply List.sorted_mergeSort
        · intro a b c hab hbc
          simp only [decide_eq_true_eq] at hab hbc ⊢
          exact Nat.le_trans hab hbc
        · intro a b
          simp only [Bool.or_eq_true, decide_eq_true_eq]
          exact Nat.le_total _ _
      have hs2 := List.Pairwise.sublist (List.take_sublist max _) hs
      exact hs2.imp (fun h => by simpa using h)
    · intro nd hnd
      have h1 := List.mem_of_mem_take hnd
      rw [List.mem_mergeSort] at h1
      exact hperm.mem_iff.mp h1

/-- C6 witness: the bound and ordering theorem applied to a concrete
two-candidate list with `max = 1`. -/
theorem C6_witness :
    (Vicinity.select_closest_nodes proxZero toProfile [nodeX1, nodeX2] 1).length ≤
      min 1 ([nodeX1, nodeX2] : List Node).length ∧
    ∃ picked : List Node,
      Vicinity.select_closest_nodes proxZero toProfile [nodeX1, nodeX2] 1 =
        picked.map Node.id ∧
      picked.Pairwise (fun a b => proxZero toProfile a.profile ≤
        proxZero toProfile b.profile) ∧
      (∀ nd ∈ picked, nd ∈ ([nodeX1, nodeX2] : List Node)) :=
  C6_sorted_bounded proxZero toProfile [nodeX1, nodeX2] [nodeX1, nodeX2] 1
    (List.Perm.refl _)

/-! ### The view builder (C8) and the gossips guard (C9). -/

theorem build_fold_spec :
    ∀ (order : List Id) (acc : List NodeInfo) (s : Nodes),
      (order.foldl buildStep (acc, s)).1 =
        acc ++ order.filterMap (fun id => (cacheLookup s.all id).map Node.info) := by
  intro order
  induction order with
  | nil =>
    intro acc s
    simp
  | cons id rest ih =>
    intro acc s
    cases hl : cacheLookup s.all id with
    | none =>
      have hstep : buildStep (acc, s) id = (acc, s) := by
        simp [buildStep, Nodes.get, hl]
      rw [List.foldl_cons, hstep, List.filterMap_cons_none (by rw [hl]; rfl)]
      exact ih acc s
    | some n =>
      have hstep : buildStep (acc, s) id =
          (acc ++ [n.info], { s with all := cachePromote s.all id }) := by
        simp [buildStep, Nodes.get, hl]
      rw [List.foldl_cons, hstep, List.filterMap_cons_some (by rw [hl]; rfl)]
      rw [ih (acc ++ [n.info]) { s with all := cachePromote s.all id }]
      have hfm : List.filterMap
          (fun id2 => (cacheLookup
            ({ s with all := cachePromote s.all id } : Nodes).all id2).map Node.info)
            rest =
          List.filterMap (fun id2 => (cacheLookup s.all id2).map Node.info) rest := by
        apply List.filterMap_congr
        intro x _
        rw [show ({ s with all := cachePromote s.all id } : Nodes).all =
          cachePromote s.all id from rfl, cacheLookup_cachePromote]
      rw [hfm, List.append_assoc, List.singleton_append]

/-- C8: `build` returns the directly-added snapshots (in `add_info` order)
followed by the snapshots of the pending Ids that are still present in the
registry, while pending Ids no longer present are silently skipped; the
enumeration order of the pending set is arbitrary. -/
theorem C8_build (b : ViewBuilder) (order : List Id) (s : Nodes)
    (hnd : order.Nodup) (hset : order.toFinset = b.view) :
    (b.build order s).1 = b.view_info ++
      order.filterMap (fun id => (cacheLookup s.all id).map Node.info) := by
  unfold ViewBuilder.build
  exact build_fold_spec order b.view_info s

def infoC : NodeInfo := { nid := 42, naddress := some 42 }

def builderC : ViewBuilder :=
  { event_origin := Option.none, selection := Selection.any,
    view := {0, 7}, view_info := [infoC] }

/-- C8 witness: the build characterization applied to a builder whose
pending set is `{0, 7}` over the one-node registry `wState` (Id 7 absent
and silently skipped). -/
theorem C8_witness :
    (builderC.build [0, 7] wState).1 = builderC.view_info ++
      ([0, 7] : List Id).filterMap
        (fun id => (cacheLookup wState.all id).map Node.info) :=
  C8_build builderC [0, 7] wState (by decide) rfl

/-- C9: when the gossip recipient is not tracked in the registry, the
vicinity `gossips` operation adds nothing to the gossip builder and leaves
the layer's view and the registry unchanged. -/
theorem C9_gossips_unknown_recipient (prox : NodeProfile → NodeProfile → Nat)
    (v : Vicinity) (gb : GossipsBuilder) (s : Nodes)
    (h : cacheLookup s.all gb.recipient = Option.none) :
    Vicinity.gossips prox v gb s = (v, gb, s) := by
  simp [Vicinity.gossips, h]

/-- C9 witness: the guard theorem applied to a concrete builder whose
recipient Id 9 is not in the one-node registry `wState`. -/
theorem C9_witness :
    Vicinity.gossips proxZero { view := [] }
      { recipient := 9, added := [] } wState =
      ({ view := [] }, { recipient := 9, added := [] }, wState) :=
  C9_gossips_unknown_recipient proxZero { view := [] }
    { recipient := 9, added := [] } wState rfl

end Poldercast
